import Mathlib

/-!
Verification of the SDE Monte Carlo engine (sde-sim-rs).

We shallowly embed the Rust sources into Lean 4. Real numbers (`f64`) are
modelled as exact rationals; the transcendental intrinsics the code calls
(`f64::sqrt`, `f64::ln`, `f64::exp`) are modelled as an abstract bundle of
functions `FloatOps`, so every theorem quantifies over them. The RNG trait
object (`&mut dyn Rng`) is modelled as an abstract state type `R` together
with a sampling function threaded explicitly through the computation.

File map of the embedding:
* `src/proc/increment.rs`  -> `LastValue`, `TimeIncrementor`,
  `WienerIncrementor`, `JumpIncrementor`, `fast_inverse_normal_cdf`,
  `fast_inverse_poisson_cdf`, the `Incrementor` sum type
* `src/filtration.rs`      -> `Array3`, `Filtration` and its operations
* `src/sim.rs`             -> `euler_iteration`, `runge_kutta_iteration`
* `src/rng/sobol.rs`       -> `StepCache`, `SobolRng`
* `src/process/util.rs`    -> `parse_single_term`, `parse_equation`,
  `parse_equations`
-/

/-- Abstract model of the `f64` transcendental intrinsics used by the code.
The engine only calls square root, natural logarithm and the exponential;
since binary floating point cannot compute these exactly, we keep them
abstract and quantify over them. -/
structure FloatOps where
  sqrt : ℚ → ℚ
  ln : ℚ → ℚ
  exp : ℚ → ℚ

/-! ## Embedding of `src/proc/increment.rs` -/

/-- `struct LastValue`: single-slot register caching the very last
calculated value, keyed by `(time_idx, scenario_idx)`. -/
structure LastValue where
  time_idx : ℕ
  scenario_idx : ℕ
  value : ℚ
deriving DecidableEq

/-- `struct TimeIncrementor { dts: Vec<f64> }`. The constructor precomputes
the step widths from the time grid; here we carry the `dts` table directly. -/
structure TimeIncrementor where
  dts : List ℚ
deriving DecidableEq

/-- `struct WienerIncrementor { last, idx, sqrt_dts }`. -/
structure WienerIncrementor where
  last : Option LastValue
  idx : ℕ
  sqrt_dts : List ℚ
deriving DecidableEq

/-- `struct JumpIncrementor { lambda, last, idx, dts }`. -/
structure JumpIncrementor where
  lambda : ℚ
  last : Option LastValue
  idx : ℕ
  dts : List ℚ
deriving DecidableEq

/-- `fn fast_inverse_normal_cdf(p: f64) -> f64`: the classical
Beasley–Springer rational approximation, translated term for term with the
`f64` `ln`/`sqrt` intrinsics taken from the abstract `FloatOps` bundle. -/
def fast_inverse_normal_cdf (ops : FloatOps) (p : ℚ) : ℚ :=
  let t : ℚ := if p < 0.5 then ops.sqrt (-2 * ops.ln p) else ops.sqrt (-2 * ops.ln (1 - p))
  let c0 : ℚ := 2.515517
  let c1 : ℚ := 0.802853
  let c2 : ℚ := 0.010328
  let d1 : ℚ := 1.432788
  let d2 : ℚ := 0.189269
  let d3 : ℚ := 0.001308
  let x : ℚ := t - ((c2 * t + c1) * t + c0) / (((d3 * t + d2) * t + d1) * t + 1.0)
  if p < 0.5 then -x else x

/-- The `while u > f && k < 200` loop of `fast_inverse_poisson_cdf`, with
the loop counter `k`, running probability `p` and running CDF `f` made
explicit. Each iteration performs `k += 1; p *= lambda / k; f += p`. -/
def poissonLoop (u lam : ℚ) (p f : ℚ) (k : ℕ) : ℕ :=
  if u > f ∧ k < 200 then
    poissonLoop u lam (p * (lam / (k + 1))) (f + p * (lam / (k + 1))) (k + 1)
  else k
termination_by 200 - k

/-- `fn fast_inverse_poisson_cdf(u: f64, lambda: f64) -> u64`: inverse
Poisson CDF by upward scan, starting from `P(X=0) = exp(-lambda)` and capped
at 200 iterations. -/
def fast_inverse_poisson_cdf (ops : FloatOps) (u lam : ℚ) : ℕ :=
  if lam ≤ 0 then 0
  else poissonLoop u lam (ops.exp (-lam)) (ops.exp (-lam)) 0

variable {R : Type}

/-- `impl Incrementor for TimeIncrementor`: `sample` returns
`self.dts[time_idx]` unconditionally and never touches the RNG. -/
def TimeIncrementor.sample (ti : TimeIncrementor) (time_idx : ℕ) (_scenario_idx : ℕ)
    (rng : R) : ℚ × TimeIncrementor × R :=
  (ti.dts.getD time_idx 0, ti, rng)

/-- `impl Incrementor for WienerIncrementor::sample`: return the cached
value when the `(time_idx, scenario_idx)` key matches, otherwise draw a
uniform from the RNG at the registered source index, transform it through
the inverse normal CDF scaled by `sqrt_dts[time_idx]`, and cache it. -/
def WienerIncrementor.sample (ops : FloatOps) (rngSample : ℕ → ℕ → ℕ → R → ℚ × R)
    (w : WienerIncrementor) (time_idx scenario_idx : ℕ) (rng : R) :
    ℚ × WienerIncrementor × R :=
  match w.last with
  | some last =>
    if last.scenario_idx = scenario_idx ∧ last.time_idx = time_idx then
      (last.value, w, rng)
    else
      let qr := rngSample time_idx scenario_idx w.idx rng
      let increment := w.sqrt_dts.getD time_idx 0 * fast_inverse_normal_cdf ops qr.1
      (increment, { w with last := some ⟨time_idx, scenario_idx, increment⟩ }, qr.2)
  | none =>
      let qr := rngSample time_idx scenario_idx w.idx rng
      let increment := w.sqrt_dts.getD time_idx 0 * fast_inverse_normal_cdf ops qr.1
      (increment, { w with last := some ⟨time_idx, scenario_idx, increment⟩ }, qr.2)

/-- `impl Incrementor for JumpIncrementor::sample`: return the cached value
when the key matches, otherwise draw a uniform, build the effective
intensity `lambda * dts[time_idx]`, invert the Poisson CDF and cache the
resulting jump count. -/
def JumpIncrementor.sample (ops : FloatOps) (rngSample : ℕ → ℕ → ℕ → R → ℚ × R)
    (j : JumpIncrementor) (time_idx scenario_idx : ℕ) (rng : R) :
    ℚ × JumpIncrementor × R :=
  match j.last with
  | some last =>
    if last.scenario_idx = scenario_idx ∧ last.time_idx = time_idx then
      (last.value, j, rng)
    else
      let ur := rngSample time_idx scenario_idx j.idx rng
      let effective_lambda := j.lambda * j.dts.getD time_idx 0
      let num_jumps : ℚ := (fast_inverse_poisson_cdf ops ur.1 effective_lambda : ℕ)
      (num_jumps, { j with last := some ⟨time_idx, scenario_idx, num_jumps⟩ }, ur.2)
  | none =>
      let ur := rngSample time_idx scenario_idx j.idx rng
      let effective_lambda := j.lambda * j.dts.getD time_idx 0
      let num_jumps : ℚ := (fast_inverse_poisson_cdf ops ur.1 effective_lambda : ℕ)
      (num_jumps, { j with last := some ⟨time_idx, scenario_idx, num_jumps⟩ }, ur.2)

/-- `Box<dyn Incrementor>`: the closed set of incrementor implementations,
modelled as a sum type. -/
inductive Incrementor where
  | time (ti : TimeIncrementor)
  | wiener (w : WienerIncrementor)
  | jump (j : JumpIncrementor)
deriving DecidableEq

/-- Dynamic dispatch of `Incrementor::sample` over the three variants. -/
def Incrementor.sample (ops : FloatOps) (rngSample : ℕ → ℕ → ℕ → R → ℚ × R)
    (inc : Incrementor) (time_idx scenario_idx : ℕ) (rng : R) :
    ℚ × Incrementor × R :=
  match inc with
  | .time ti =>
      let r := ti.sample time_idx scenario_idx rng
      (r.1, .time r.2.1, r.2.2)
  | .wiener w =>
      let r := w.sample ops rngSample time_idx scenario_idx rng
      (r.1, .wiener r.2.1, r.2.2)
  | .jump j =>
      let r := j.sample ops rngSample time_idx scenario_idx rng
      (r.1, .jump r.2.1, r.2.2)

/-- CLAIM C1: for every Wiener and every Jump incrementor, a second
`sample` call with the same `(time_idx, scenario_idx)` key returns exactly
the first call's value, leaves the incrementor's cache unchanged and leaves
the RNG state unchanged (no draw), for every RNG implementation. -/
theorem wiener_jump_sample_repeat_cached {R : Type} (ops : FloatOps)
    (rngSample : ℕ → ℕ → ℕ → R → ℚ × R) (w : WienerIncrementor)
    (j : JumpIncrementor) (t s : ℕ) (rng rng2 : R) :
    (WienerIncrementor.sample ops rngSample
        (WienerIncrementor.sample ops rngSample w t s rng).2.1 t s
        (WienerIncrementor.sample ops rngSample w t s rng).2.2 =
      WienerIncrementor.sample ops rngSample w t s rng) ∧
    (JumpIncrementor.sample ops rngSample
        (JumpIncrementor.sample ops rngSample j t s rng2).2.1 t s
        (JumpIncrementor.sample ops rngSample j t s rng2).2.2 =
      JumpIncrementor.sample ops rngSample j t s rng2) := by
  constructor
  · cases hw : w.last with
    | none => simp [WienerIncrementor.sample, hw]
    | some last =>
      by_cases hk : last.scenario_idx = s ∧ last.time_idx = t
      · simp [WienerIncrementor.sample, hw, hk]
      · simp [WienerIncrementor.sample, hw, hk]
  · cases hj : j.last with
    | none => simp [JumpIncrementor.sample, hj]
    | some last =>
      by_cases hk : last.scenario_idx = s ∧ last.time_idx = t
      · simp [JumpIncrementor.sample, hj, hk]
      · simp [JumpIncrementor.sample, hj, hk]

/-! ## Embedding of `src/filtration.rs` -/

/-- Last-insertion-wins index lookup. `FxHashMap` maps collected from
`iter().enumerate().map(|(i, x)| (x, i))` keep, for a duplicated key, the
index of its last occurrence; this function reproduces that lookup. -/
def lastIdxOf {α : Type} [DecidableEq α] : List α → α → Option ℕ
  | [], _ => none
  | y :: ys, x =>
    match lastIdxOf ys x with
    | some i => some (i + 1)
    | none => if y = x then some 0 else none

/-- `ndarray::Array3<f64>` in standard (row-major) layout: dimensions
`(d1, d2, d3)` over a contiguous buffer, element `[[i, j, k]]` at flat
offset `i*d2*d3 + j*d3 + k`; `as_slice()` exposes `data` itself. -/
structure Array3 where
  d1 : ℕ
  d2 : ℕ
  d3 : ℕ
  data : List ℚ
deriving DecidableEq

/-- Read `a[[i, j, k]]` of an `Array3` through its row-major layout. -/
def Array3.get (a : Array3) (i j k : ℕ) : ℚ :=
  a.data.getD (i * a.d2 * a.d3 + j * a.d3 + k) 0

/-- Write `a[[i, j, k]] = v` through the row-major layout. -/
def Array3.setv (a : Array3) (i j k : ℕ) (v : ℚ) : Array3 :=
  { a with data := a.data.set (i * a.d2 * a.d3 + j * a.d3 + k) v }

/-- `struct Filtration`: times, scenario labels, process names and the
dense value tensor. The three `FxHashMap` index maps are derived data
(built in `Filtration::new` from the three lists) and are modelled by
`lastIdxOf` lookups below. -/
structure Filtration where
  times : List ℚ
  scenarios : List ℤ
  process_names : List String
  raw_values : Array3
deriving DecidableEq

/-- The `time_idx_map` lookup of `Filtration`. -/
def Filtration.time_idx_map (f : Filtration) (t : ℚ) : Option ℕ :=
  lastIdxOf f.times t

/-- The `scenario_idx_map` lookup of `Filtration`. -/
def Filtration.scenario_idx_map (f : Filtration) (s : ℤ) : Option ℕ :=
  lastIdxOf f.scenarios s

/-- The `process_name_idx_map` lookup of `Filtration`. -/
def Filtration.process_name_idx_map (f : Filtration) (n : String) : Option ℕ :=
  lastIdxOf f.process_names n

/-- `Filtration::get_raw(t_idx, s_idx, p_idx)`: hashmap-free indexed read
`self.raw_values[[t_idx, s_idx, p_idx]]`. -/
def Filtration.get_raw (f : Filtration) (t_idx s_idx p_idx : ℕ) : ℚ :=
  f.raw_values.get t_idx s_idx p_idx

/-- `Filtration::set_raw(t_idx, s_idx, p_idx, val)`. -/
def Filtration.set_raw (f : Filtration) (t_idx s_idx p_idx : ℕ) (val : ℚ) : Filtration :=
  { f with raw_values := f.raw_values.setv t_idx s_idx p_idx val }

/-- `Filtration::indices`: resolve a `(time, scenario, process_name)` key
through the three index maps, failing if any lookup misses. -/
def Filtration.indices (f : Filtration) (time : ℚ) (scenario : ℤ)
    (process_name : String) : Option (ℕ × ℕ × ℕ) := do
  let time_idx ← f.time_idx_map time
  let scenario_idx ← f.scenario_idx_map scenario
  let process_idx ← f.process_name_idx_map process_name
  pure (time_idx, scenario_idx, process_idx)

/-- `Filtration::value`: indexed read by key, returning a descriptive error
when any component of the key is unknown. -/
def Filtration.value (f : Filtration) (time : ℚ) (scenario : ℤ)
    (process_name : String) : Except String ℚ :=
  match f.indices time scenario process_name with
  | some idx => .ok (f.raw_values.get idx.1 idx.2.1 idx.2.2)
  | none => .error ("No value found for process: " ++ process_name)

/-- `Filtration::set_value`: indexed write by key; silently a no-op when
any component of the key is unknown. -/
def Filtration.set_value (f : Filtration) (time : ℚ) (scenario : ℤ)
    (process_name : String) (val : ℚ) : Filtration :=
  match f.indices time scenario process_name with
  | some idx => { f with raw_values := f.raw_values.setv idx.1 idx.2.1 idx.2.2 val }
  | none => f

/-- `Filtration::set_initial_values`: for every scenario and every process
name, write the caller-supplied initial value (default 0 for names absent
from the mapping) at the first grid time `self.times[0]`. The mapping is
modelled extensionally as `String → Option ℚ`. -/
def Filtration.set_initial_values (f : Filtration) (values : String → Option ℚ) :
    Filtration :=
  let initial_time := f.times.getD 0 0
  f.scenarios.foldl
    (fun acc scenario =>
      f.process_names.foldl
        (fun acc2 process_name =>
          acc2.set_value initial_time scenario process_name
            ((values process_name).getD 0))
        acc)
    f

/-- `Filtration::new`: assemble the struct from the caller-supplied lists
and raw tensor, then overwrite the first time row with the initial values
when a mapping is given. -/
def Filtration.new (times : List ℚ) (scenarios : List ℤ)
    (process_names : List String) (raw_values : Array3)
    (initial_values : Option (String → Option ℚ)) : Filtration :=
  let f : Filtration := ⟨times, scenarios, process_names, raw_values⟩
  match initial_values with
  | some values => f.set_initial_values values
  | none => f

/-- `Filtration::to_dataframe`: materialise the tensor as long-format rows
`(time, scenario, process_name, value)`, iterating times in the outer loop,
scenarios in the middle loop and process names in the inner loop. -/
def Filtration.to_dataframe (f : Filtration) : List (ℚ × ℤ × String × ℚ) :=
  f.times.enum.flatMap fun tp =>
    f.scenarios.enum.flatMap fun sp =>
      f.process_names.enum.map fun pp =>
        (tp.2, sp.2, pp.2, f.raw_values.get tp.1 sp.1 pp.1)

/-! ## Embedding of `src/sim.rs` -/

/-- `type CoefficientFn` as used by `sim.rs`: a compiled coefficient is
called with the filtration, the current row slice, the current time and the
scenario label, and yields a value. -/
def Coefficient : Type := Filtration → List ℚ → ℚ → ℤ → ℚ

/-- The coefficient used when `process.coefficients[inc_idx]` would be out
of range; the struct invariant of `LevyProcess::new` (equal list lengths)
keeps it unreachable. -/
def defaultCoefficient : Coefficient := fun _ _ _ _ => 0

/-- `struct LevyProcess` (the `src/process/mod.rs` generation used by
`sim.rs`): process name, coefficient list and incrementor list. -/
structure LevyProcess where
  name : String
  coefficients : List Coefficient
  incrementors : List Incrementor

instance : Inhabited LevyProcess := ⟨⟨"", [], []⟩⟩

/-- The inner `for (inc_idx, incrementor) in process.incrementors...` loop
shared by the Euler step and both Runge–Kutta stages: evaluate the
coefficient at index `idx` on the given filtration/slice/time/scenario
arguments, sample the incrementor, and accumulate `g idx c d` (where `g`
instantiates to `c*d` for Euler and to the `inc_idx == 0` branch of the
Runge–Kutta stages), threading the RNG state and the updated incrementor
caches through. -/
def incLoop (ops : FloatOps) (rngSample : ℕ → ℕ → ℕ → R → ℚ × R)
    (g : ℕ → ℚ → ℚ → ℚ) (coeffs : List Coefficient) (fA : Filtration)
    (sA : List ℚ) (tA : ℚ) (scA : ℤ) (time_idx scenario_idx : ℕ) :
    ℕ → List Incrementor → R → ℚ × List Incrementor × R
  | _, [], rng => (0, [], rng)
  | idx, inc :: rest, rng =>
    let c := (coeffs.getD idx defaultCoefficient) fA sA tA scA
    let dr := Incrementor.sample ops rngSample inc time_idx scenario_idx rng
    let restr := incLoop ops rngSample g coeffs fA sA tA scA time_idx scenario_idx
      (idx + 1) rest dr.2.2
    (g idx c dr.1 + restr.1, dr.2.1 :: restr.2.1, restr.2.2)

/-- Specification-side sum of the contributions `g idx c d` for a given
list of realised increments `ds`, used to state what the loops compute. -/
def termSum (g : ℕ → ℚ → ℚ → ℚ) (coeffs : List Coefficient) (fA : Filtration)
    (sA : List ℚ) (tA : ℚ) (scA : ℤ) : ℕ → List ℚ → ℚ
  | _, [] => 0
  | idx, d :: ds =>
    g idx ((coeffs.getD idx defaultCoefficient) fA sA tA scA) d +
      termSum g coeffs fA sA tA scA (idx + 1) ds

/-- The per-process computation loop of `euler_iteration`: for the `i`-th
process, start from `current_values[process_indices[i]]`, add each
coefficient times its sampled increment, and record the result in the
`results` buffer (returned as the third component). -/
def eulerProcLoop (ops : FloatOps) (rngSample : ℕ → ℕ → ℕ → R → ℚ × R)
    (f : Filtration) (cv : List ℚ) (t_start : ℚ) (scenario : ℤ)
    (time_idx scenario_idx : ℕ) (pidx : List ℕ) :
    ℕ → List LevyProcess → R → List LevyProcess × R × List ℚ
  | _, [], rng => ([], rng, [])
  | i, p :: ps, rng =>
    let r := incLoop ops rngSample (fun _ c d => c * d) p.coefficients f cv
      t_start scenario time_idx scenario_idx 0 p.incrementors rng
    let val := cv.getD (pidx.getD i 0) 0 + r.1
    let rest := eulerProcLoop ops rngSample f cv t_start scenario time_idx
      scenario_idx pidx (i + 1) ps r.2.2
    ({ p with incrementors := r.2.1 } :: rest.1, rest.2.1, val :: rest.2.2)

/-- The write-back loop of `euler_iteration`:
`for (i, &p_idx) in process_indices.iter().enumerate()`, set
`target_slice[next_offset + p_idx] = results[i]`. -/
def writeResults (next_offset : ℕ) : List ℚ → ℕ → List ℕ → List ℚ → List ℚ
  | data, _, [], _ => data
  | data, i, p :: ps, results =>
    writeResults next_offset (data.set (next_offset + p) (results.getD i 0))
      (i + 1) ps results

/-- `fn euler_iteration` from `src/sim.rs`: resolve the time index, copy
the current row slice into `current_values`, compute every process update
into the `results` buffer against that snapshot (the filtration is not
written during this phase), then write all results into row
`time_idx + 1`. Returns the updated filtration, the processes with their
updated incrementor caches, and the RNG state. -/
def euler_iteration (ops : FloatOps) (rngSample : ℕ → ℕ → ℕ → R → ℚ × R)
    (f : Filtration) (processes : List LevyProcess) (process_indices : List ℕ)
    (t_start : ℚ) (scenario : ℤ) (rng : R) (num_scenarios : ℕ) :
    Filtration × List LevyProcess × R :=
  let num_p := processes.length
  let time_idx := (f.time_idx_map t_start).getD 0
  let scenario_idx := (scenario - 1).toNat
  let base_offset := time_idx * num_scenarios * num_p + scenario_idx * num_p
  let current_values := (f.raw_values.data.drop base_offset).take num_p
  let lp := eulerProcLoop ops rngSample f current_values t_start scenario
    time_idx scenario_idx process_indices 0 processes rng
  let next_offset := base_offset + num_scenarios * num_p
  let data2 := writeResults next_offset f.raw_values.data 0 process_indices lp.2.2
  ({ f with raw_values := { f.raw_values with data := data2 } }, lp.1, lp.2.1)

/-- Stage 1 of `fn runge_kutta_iteration`: for each process compute
`step_k1` with every non-drift increment reflected downward by
`sk * sqrt_dt`, write `current_values[process_indices[i]] + step_k1` into
the scratchpad at `[[0, 0, i]]`, and record `k1[i] = step_k1`. -/
def rkStage1 (ops : FloatOps) (rngSample : ℕ → ℕ → ℕ → R → ℚ × R)
    (f : Filtration) (cv : List ℚ) (t_start : ℚ) (scenario : ℤ)
    (time_idx scenario_idx : ℕ) (pidx : List ℕ) (sk sqrt_dt : ℚ) :
    ℕ → List LevyProcess → Filtration → R →
      List LevyProcess × Filtration × R × List ℚ
  | _, [], scratch, rng => ([], scratch, rng, [])
  | i, p :: ps, scratch, rng =>
    let r := incLoop ops rngSample
      (fun idx c d => if idx = 0 then c * d else c * (d - sk * sqrt_dt))
      p.coefficients f cv t_start scenario time_idx scenario_idx 0
      p.incrementors rng
    let scratch' := { scratch with
      raw_values := scratch.raw_values.setv 0 0 i (cv.getD (pidx.getD i 0) 0 + r.1) }
    let rest := rkStage1 ops rngSample f cv t_start scenario time_idx
      scenario_idx pidx sk sqrt_dt (i + 1) ps scratch' r.2.2
    ({ p with incrementors := r.2.1 } :: rest.1, rest.2.1, rest.2.2.1,
      r.1 :: rest.2.2.2)

/-- Stage 2 of `fn runge_kutta_iteration`: re-evaluate each coefficient on
the scratchpad (as filtration argument) and its raw slice (as row-slice
argument) at time `0.0` and scenario `0`, sample the same incrementors
again (which return their cached stage-1 values), reflect non-drift
increments upward by `sk * sqrt_dt`, and record `k2[i]`. -/
def rkStage2 (ops : FloatOps) (rngSample : ℕ → ℕ → ℕ → R → ℚ × R)
    (scratch : Filtration) (scratch_ptr : List ℚ) (time_idx scenario_idx : ℕ)
    (sk sqrt_dt : ℚ) : List LevyProcess → R → List LevyProcess × R × List ℚ
  | [], rng => ([], rng, [])
  | p :: ps, rng =>
    let r := incLoop ops rngSample
      (fun idx c d => if idx = 0 then c * d else c * (d + sk * sqrt_dt))
      p.coefficients scratch scratch_ptr 0 0 time_idx scenario_idx 0
      p.incrementors rng
    let rest := rkStage2 ops rngSample scratch scratch_ptr time_idx
      scenario_idx sk sqrt_dt ps r.2.2
    ({ p with incrementors := r.2.1 } :: rest.1, rest.2.1, r.1 :: rest.2.2)

/-- The commit loop of `fn runge_kutta_iteration`:
`target_slice[next_offset + p_idx] = current_values[p_idx] + 0.5 * (k1[i] + k2[i])`. -/
def rkWriteBack (next_offset : ℕ) (cv k1 k2 : List ℚ) :
    List ℚ → ℕ → List ℕ → List ℚ
  | data, _, [] => data
  | data, i, p :: ps =>
    rkWriteBack next_offset cv k1 k2
      (data.set (next_offset + p)
        (cv.getD p 0 + 0.5 * (k1.getD i 0 + k2.getD i 0)))
      (i + 1) ps

/-- `fn runge_kutta_iteration` from `src/sim.rs`. The Bernoulli sign drawn
by `rand::random_bool(0.5)` is passed in as the parameter `sk` (the code
draws it from an OS-seeded thread RNG independent of the engine RNG).
Returns the updated filtration, processes, RNG state and scratchpad. -/
def runge_kutta_iteration (ops : FloatOps) (rngSample : ℕ → ℕ → ℕ → R → ℚ × R)
    (sk : ℚ) (f : Filtration) (processes : List LevyProcess)
    (process_indices : List ℕ) (t_start t_end : ℚ) (scenario : ℤ) (rng : R)
    (scratchpad : Filtration) (num_scenarios : ℕ) :
    Filtration × List LevyProcess × R × Filtration :=
  let dt := t_end - t_start
  let sqrt_dt := ops.sqrt dt
  let num_p := processes.length
  let time_idx := (f.time_idx_map t_start).getD 0
  let scenario_idx := (scenario - 1).toNat
  let base_offset := time_idx * num_scenarios * num_p + scenario_idx * num_p
  let current_values := (f.raw_values.data.drop base_offset).take num_p
  let s1 := rkStage1 ops rngSample f current_values t_start scenario time_idx
    scenario_idx process_indices sk sqrt_dt 0 processes scratchpad rng
  let scratch1 := s1.2.1
  let s2 := rkStage2 ops rngSample scratch1 scratch1.raw_values.data time_idx
    scenario_idx sk sqrt_dt s1.1 s1.2.2.1
  let next_offset := base_offset + num_scenarios * num_p
  let data2 := rkWriteBack next_offset current_values s1.2.2.2 s2.2.2
    f.raw_values.data 0 process_indices
  ({ f with raw_values := { f.raw_values with data := data2 } }, s2.1, s2.2.1,
    scratch1)

/-! ## Embedding of `src/rng/sobol.rs` -/

/-- `struct StepCache` of the `rng` module: the struct's declaration site
is not among the sources, so its fields are reconstructed from its two
construction sites (`rng/pseudo.rs` sets `time_idx: Some(..)`,
`rng/sobol.rs` sets `time_idx: None`) and spec section 3. -/
structure StepCache where
  time_idx : Option ℕ
  scenario_idx : ℕ
  values : List ℚ
deriving DecidableEq

/-- `struct SobolRng`: the cached scenario vector, the number of non-`dt`
increments `K`, and the position of the (post-`skip(5)`) Sobol iterator,
modelled as a counter into an abstract stream. -/
structure SobolRng where
  last_step : Option StepCache
  num_increments : ℕ
  pos : ℕ
deriving DecidableEq

/-- `SobolRng::refresh_cache`: pull the next vector from the Sobol
iterator, scramble it, and store it as the scenario-wide cache. The
iterator is modelled as the abstract stream `points` read at `pos` (the
`sobol` crate's iterator always yields a point for the engine's use), and
the XOR scrambler as the abstract function `scramble` indexed by how many
draws the scrambler has already served (its ChaCha state advances once per
drawn vector). -/
def SobolRng.refresh_cache (points : ℕ → List ℚ) (scramble : ℕ → List ℚ → List ℚ)
    (r : SobolRng) (scenario_idx : ℕ) : SobolRng :=
  let raw := points r.pos
  let current_scrambled_path := scramble r.pos raw
  { r with
    last_step := some ⟨none, scenario_idx, current_scrambled_path⟩
    pos := r.pos + 1 }

/-- `impl Rng for SobolRng::sample`: refresh the scenario cache only when
the cached scenario differs, then return element
`time_idx * num_increments + increment_idx` of the cached vector
(0.0 when out of range). -/
def SobolRng.sample (points : ℕ → List ℚ) (scramble : ℕ → List ℚ → List ℚ)
    (r : SobolRng) (time_idx scenario_idx increment_idx : ℕ) : ℚ × SobolRng :=
  let is_cached : Bool := match r.last_step with
    | some c => c.scenario_idx == scenario_idx
    | none => false
  let r2 := if is_cached then r else r.refresh_cache points scramble scenario_idx
  let v := match r2.last_step with
    | some c => c.values.getD (time_idx * r2.num_increments + increment_idx) 0
    | none => 0
  (v, r2)

/-! ## Embedding of `src/process/util.rs`

Equation strings are modelled as `List Char`. The embedded expression
engine (`evalexpr::build_operator_tree`) and float parsing
(`str::parse::<f64>`) are external libraries; they are modelled as the
abstract parameters `exprOk` (does the expression compile?) and `parseF64`
(numeric literal parsing), and every theorem quantifies over them. -/

/-- The regex word class `[a-zA-Z0-9_]`. -/
def isWordCh (c : Char) : Bool :=
  ('a' ≤ c && c ≤ 'z') || ('A' ≤ c && c ≤ 'Z') || ('0' ≤ c && c ≤ '9') || c == '_'

/-- Whitespace as used by the regex class `\s` and by `str::trim`. -/
def isSpaceCh (c : Char) : Bool :=
  c == ' ' || c == '\t' || c == '\n' || c == '\r' || c.toNat == 11 || c.toNat == 12

/-- `str::trim`: drop whitespace from both ends. -/
def trimChars (l : List Char) : List Char :=
  ((l.dropWhile isSpaceCh).reverse.dropWhile isSpaceCh).reverse

/-- The anchored name regex `^\s*d([a-zA-Z0-9_]+)` of `parse_equation`:
skip leading whitespace, require a literal `d`, then capture one or more
word characters. -/
def parseNameOf (eq : List Char) : Option (List Char) :=
  match eq.dropWhile isSpaceCh with
  | 'd' :: cs =>
    let nm := cs.takeWhile isWordCh
    if nm.isEmpty then none else some nm
  | _ => none

/-- The top-level `+` splitter of `parse_equation`: walk the right-hand
side tracking parenthesis depth; a `+` at depth zero ends the current
term. Terms whose trim is empty are skipped, exactly as in the source. -/
def collectTermsAux : List Char → List Char → ℤ → List (List Char)
  | [], cur, _ => if (trimChars cur).isEmpty then [] else [cur]
  | c :: cs, cur, depth =>
    if c = '(' then collectTermsAux cs (cur ++ ['(']) (depth + 1)
    else if c = ')' then collectTermsAux cs (cur ++ [')']) (depth - 1)
    else if c = '+' ∧ depth = 0 then
      if (trimChars cur).isEmpty then collectTermsAux cs [] depth
      else cur :: collectTermsAux cs [] depth
    else collectTermsAux cs (cur ++ [c]) depth

/-- Split a right-hand side into its top-level terms. -/
def collectTerms (rhs : List Char) : List (List Char) :=
  collectTermsAux rhs [] 0

/-- The balanced-parenthesis scan at the start of `parse_single_term`:
returns `(coeff_start, coeff_end)`, where `coeff_start` is the position
just after the first `(` seen at depth 0 and `coeff_end` the position of
the `)` that brings the depth back to 0 (the loop breaks there); both
default to 0 exactly as the mutable locals in the source do. -/
def scanParens : List Char → ℕ → ℤ → ℕ → ℕ × ℕ
  | [], _, _, cs => (cs, 0)
  | ch :: rest, i, depth, cs =>
    if ch = '(' then
      scanParens rest (i + 1) (depth + 1) (if depth = 0 then i + 1 else cs)
    else if ch = ')' then
      if depth - 1 = 0 then (cs, i) else scanParens rest (i + 1) (depth - 1) cs
    else scanParens rest (i + 1) depth cs

/-- Slice the (already trimmed) term into the coefficient expression
`term[coeff_start..coeff_end].trim()` and the remainder
`term[coeff_end + 1..].trim()`. A slice whose start exceeds its end (which
would panic in Rust) is modelled as the empty slice. -/
def extractCoeff (term : List Char) : List Char × List Char :=
  let p := scanParens term 0 0 0
  (trimChars ((term.take p.2).drop p.1), trimChars (term.drop (p.2 + 1)))

/-- The optional lambda group `(?:\(([^)]+)\))?` of the incrementor regex:
immediately after the token, a `(`, one or more non-`)` characters
(captured), then `)`; anything else yields no capture. -/
def takeParam : List Char → Option (List Char)
  | '(' :: cs =>
    let content := cs.takeWhile (fun c => c != ')')
    if content.isEmpty then none
    else if (cs.drop content.length).head? = some ')' then some content
    else none
  | _ => none

/-- The incrementor regex `^.*?(d[tWJ][a-zA-Z0-9_]*)(?:\(([^)]+)\))?`: the
lazy prefix finds the first position where `d` is followed by one of
`t`, `W`, `J`; the token then greedily extends over word characters, and
the optional lambda group is read right after it. -/
def findToken : List Char → Option (List Char × Option (List Char))
  | [] => none
  | 'd' :: c :: cs =>
    if c = 't' ∨ c = 'W' ∨ c = 'J' then
      let tokenTail := cs.takeWhile isWordCh
      some ('d' :: c :: tokenTail, takeParam (cs.drop tokenTail.length))
    else findToken (c :: cs)
  | _ :: cs => findToken cs

/-- The incrementor kind selected by `parse_single_term`, with the data
the corresponding constructor receives. -/
inductive IncrementorSpec where
  | time
  | wiener (name : List Char)
  | jump (name : List Char) (lambda : ℚ)
deriving DecidableEq

/-- `fn parse_single_term`: extract the balanced-parenthesis coefficient
expression, find the incrementor token, compile the expression (abstracted
by `exprOk`), and build the incrementor — erroring on a missing token, an
uncompilable expression, a `dJ` token without a parseable numeric lambda,
or a token that is none of `dt`, `dW…`, `dJ…`. -/
def parse_single_term (exprOk : List Char → Bool) (parseF64 : List Char → Option ℚ)
    (term0 : List Char) : Except String (List Char × IncrementorSpec) :=
  let term := trimChars term0
  let ec := extractCoeff term
  let expression_str := ec.1
  let rest := ec.2
  match findToken rest with
  | none => .error ("Could not parse incrementor from term: " ++ String.mk rest)
  | some (token, param) =>
    if exprOk expression_str = false then
      .error ("Failed to parse expression '" ++ String.mk expression_str ++ "'")
    else if token = ['d', 't'] then .ok (expression_str, .time)
    else if ['d', 'W'].isPrefixOf token then .ok (expression_str, .wiener token)
    else if ['d', 'J'].isPrefixOf token then
      match param.bind parseF64 with
      | some lam => .ok (expression_str, .jump token lam)
      | none =>
        .error ("Jump term '" ++ String.mk token ++
          "' requires a numeric lambda, e.g., dJ(0.5)")
    else .error ("Unsupported term '" ++ String.mk token ++ "' found in equation.")

/-- Sequential processing of the collected terms with first-error-wins
propagation, as in the character loop of `parse_equation`. -/
def parseTermsList (exprOk : List Char → Bool) (parseF64 : List Char → Option ℚ) :
    List (List Char) → Except String (List (List Char × IncrementorSpec))
  | [] => .ok []
  | t :: ts => do
    let p ← parse_single_term exprOk parseF64 t
    let ps ← parseTermsList exprOk parseF64 ts
    pure (p :: ps)

/-- The result of parsing one equation: the process name and its ordered
(coefficient expression, incrementor) pairs. The coefficient and
incrementor lists are pushed pairwise, so the `LevyProcess::new` length
check always succeeds. -/
def ParsedProcess : Type := List Char × List (List Char × IncrementorSpec)

/-- Rust's `str::split(sep)`: the (always non-empty) list of segments
between occurrences of the separator. -/
def splitOnChar (sep : Char) : List Char → List (List Char)
  | [] => [[]]
  | c :: cs =>
    if c = sep then [] :: splitOnChar sep cs
    else
      match splitOnChar sep cs with
      | [] => [[c]]
      | h :: t => (c :: h) :: t

/-- `fn parse_equation`: extract the process name, split off the
right-hand side after the first `=` (`split('=').nth(1)`), split it into
top-level terms and parse each in order. -/
def parse_equation (exprOk : List Char → Bool) (parseF64 : List Char → Option ℚ)
    (equation : List Char) : Except String ParsedProcess :=
  match parseNameOf equation with
  | none => .error "Could not parse process name (e.g., dX1) from equation."
  | some name =>
    match (splitOnChar '=' equation).drop 1 |>.head? with
    | none => .error "No '=' found in equation"
    | some rhs0 => do
      let prs ← parseTermsList exprOk parseF64 (collectTerms (trimChars rhs0))
      pure (name, prs)

/-- Recursive worker of `parse_equations`. -/
def parseEquationsList (exprOk : List Char → Bool) (parseF64 : List Char → Option ℚ) :
    List (List Char) → Except String (List ParsedProcess)
  | [] => .ok []
  | eq :: eqs => do
    let p ← parse_equation exprOk parseF64 eq
    let ps ← parseEquationsList exprOk parseF64 eqs
    pure (p :: ps)

/-- `fn parse_equations`: reject an empty input list, otherwise parse all
equations in order with first-error-wins propagation. -/
def parse_equations (exprOk : List Char → Bool) (parseF64 : List Char → Option ℚ)
    (equations : List (List Char)) : Except String (List ParsedProcess) :=
  if equations.isEmpty then .error "No equations provided to parse."
  else parseEquationsList exprOk parseF64 equations

/-! ## General helper lemmas -/

theorem lastIdxOf_eq_none_iff {α : Type} [DecidableEq α] (xs : List α) (x : α) :
    lastIdxOf xs x = none ↔ x ∉ xs := by
  induction xs with
  | nil => simp [lastIdxOf]
  | cons y ys ih =>
    simp only [lastIdxOf]
    cases h : lastIdxOf ys x with
    | some i =>
      rw [h] at ih
      simp only [List.mem_cons]
      constructor
      · intro hc; exact absurd hc (by simp)
      · intro hc; exact absurd (by simpa using ih) (by intro hn; exact hc (Or.inr hn))
    | none =>
      rw [h] at ih
      simp only [List.mem_cons]
      constructor
      · intro hc
        intro hmem
        rcases hmem with h1 | h2
        · split at hc
          · simp at hc
          · exact absurd h1.symm (by assumption)
        · exact (ih.mp rfl) h2
      · intro hc
        have hne : ¬ y = x := fun he => hc (Or.inl he.symm)
        simp [hne]

theorem lastIdxOf_lt_length {α : Type} [DecidableEq α] (xs : List α) (x : α) (i : ℕ)
    (h : lastIdxOf xs x = some i) : i < xs.length := by
  induction xs generalizing i with
  | nil => simp [lastIdxOf] at h
  | cons y ys ih =>
    simp only [lastIdxOf] at h
    cases hh : lastIdxOf ys x with
    | some k =>
      rw [hh] at h
      simp only [Option.some.injEq] at h
      subst h
      exact Nat.succ_lt_succ (ih k hh)
    | none =>
      rw [hh] at h
      by_cases hyx : y = x
      · rw [if_pos hyx] at h
        have h0 : i = 0 := by injection h with h'; omega
        subst h0
        simp
      · rw [if_neg hyx] at h
        simp at h

theorem lastIdxOf_of_nodup_get {α : Type} [DecidableEq α] (xs : List α)
    (hnd : xs.Nodup) (i : ℕ) (hi : i < xs.length) :
    lastIdxOf xs (xs.get ⟨i, hi⟩) = some i := by
  induction xs generalizing i with
  | nil => simp at hi
  | cons y ys ih =>
    cases i with
    | zero =>
      have hy : y ∉ ys := (List.nodup_cons.mp hnd).1
      have : lastIdxOf ys y = none := (lastIdxOf_eq_none_iff ys y).mpr hy
      simp [lastIdxOf, this]
    | succ n =>
      have hn : n < ys.length := Nat.lt_of_succ_lt_succ hi
      have hrec := ih (List.nodup_cons.mp hnd).2 n hn
      simp only [List.get_eq_getElem] at hrec ⊢
      have hcons : ((y :: ys)[n + 1] : α) = ys[n] := by simp
      rw [hcons]
      simp [lastIdxOf, hrec]

theorem getD_set_eq (l : List ℚ) (i : ℕ) (v : ℚ) (hi : i < l.length) :
    (l.set i v).getD i 0 = v := by
  rw [List.getD_eq_getElem?_getD, List.getElem?_set_self hi]
  rfl

theorem getD_set_ne (l : List ℚ) (i j : ℕ) (v : ℚ) (h : i ≠ j) :
    (l.set i v).getD j 0 = l.getD j 0 := by
  rw [List.getD_eq_getElem?_getD, List.getElem?_set_ne h, ← List.getD_eq_getElem?_getD]

/-! ## Claim C10 -/

/-- CLAIM C10: for every `(time, scenario, process_name)` key with any
component absent from the Filtration's index maps, `Filtration::value`
returns an error naming the process, and `Filtration::set_value` returns
the filtration unchanged (a silent no-op); both operations are total. -/
theorem filtration_unknown_key_error_and_noop (f : Filtration) (time : ℚ)
    (scenario : ℤ) (name : String) (v : ℚ)
    (h : time ∉ f.times ∨ scenario ∉ f.scenarios ∨ name ∉ f.process_names) :
    f.value time scenario name = .error ("No value found for process: " ++ name) ∧
    f.set_value time scenario name v = f := by
  have hidx : f.indices time scenario name = none := by
    rcases h with h | h | h
    · have : f.time_idx_map time = none := (lastIdxOf_eq_none_iff _ _).mpr h
      simp [Filtration.indices, this]
    · have : f.scenario_idx_map scenario = none := (lastIdxOf_eq_none_iff _ _).mpr h
      cases ht : f.time_idx_map time <;> simp [Filtration.indices, this, ht]
    · have : f.process_name_idx_map name = none := (lastIdxOf_eq_none_iff _ _).mpr h
      cases ht : f.time_idx_map time <;>
        cases hs : f.scenario_idx_map scenario <;>
          simp [Filtration.indices, this, ht, hs]
  exact ⟨by simp [Filtration.value, hidx], by simp [Filtration.set_value, hidx]⟩

/-- Witness for C10: the key `(2, 1, "X")` has time `2` absent from the
grid `[0, 1]`, so `value` errors and `set_value` is a no-op. -/
theorem filtration_unknown_key_error_and_noop_witness :
    ((2 : ℚ) ∉ (Filtration.mk [0, 1] [1] ["X"] ⟨2, 1, 1, [5, 7]⟩).times ∨
      (1 : ℤ) ∉ (Filtration.mk [0, 1] [1] ["X"] ⟨2, 1, 1, [5, 7]⟩).scenarios ∨
      "X" ∉ (Filtration.mk [0, 1] [1] ["X"] ⟨2, 1, 1, [5, 7]⟩).process_names) ∧
    ((Filtration.mk [0, 1] [1] ["X"] ⟨2, 1, 1, [5, 7]⟩).value 2 1 "X" =
        .error ("No value found for process: " ++ "X") ∧
      (Filtration.mk [0, 1] [1] ["X"] ⟨2, 1, 1, [5, 7]⟩).set_value 2 1 "X" 9 =
        Filtration.mk [0, 1] [1] ["X"] ⟨2, 1, 1, [5, 7]⟩) :=
  ⟨Or.inl (by decide),
    filtration_unknown_key_error_and_noop _ 2 1 "X" 9 (Or.inl (by decide))⟩

/-! ## Claims C4 and C5 -/

theorem map_enumFrom_flatMap {α β γ : Type} (h : β → γ) (g : ℕ × α → List β)
    (G : α → List γ) (hg : ∀ i x, (g (i, x)).map h = G x) :
    ∀ (l : List α) (k : ℕ), ((List.enumFrom k l).flatMap g).map h = l.flatMap G := by
  intro l
  induction l with
  | nil => intro k; simp
  | cons a as ih =>
    intro k
    simp only [List.enumFrom, List.flatMap_cons, List.map_append, hg, ih]

theorem enum_map_snd_comp {α β : Type} (l : List α) (F : α → β) :
    l.enum.map (fun p => F p.2) = l.map F := by
  have : (fun p : ℕ × α => F p.2) = F ∘ Prod.snd := rfl
  rw [this, ← List.map_map, List.enum_map_snd]

/-- The long-format key triple of a materialised row. -/
def rowKey (r : ℚ × ℤ × String × ℚ) : ℚ × ℤ × String := (r.1, r.2.1, r.2.2.1)

theorem to_dataframe_map_rowKey (f : Filtration) :
    f.to_dataframe.map rowKey =
      f.times.flatMap fun t => f.scenarios.flatMap fun s =>
        f.process_names.map fun n => (t, s, n) := by
  apply map_enumFrom_flatMap rowKey _ _ _ f.times 0
  intro i t
  apply map_enumFrom_flatMap rowKey _ _ _ f.scenarios 0
  intro j s
  rw [List.map_map]
  exact enum_map_snd_comp f.process_names fun n => (t, s, n)

theorem tripleList_eq_product (ts : List ℚ) (ss : List ℤ) (ns : List String) :
    (ts.flatMap fun t => ss.flatMap fun s => ns.map fun n => (t, s, n)) =
      ts ×ˢ (ss ×ˢ ns) := by
  show _ = ts.flatMap fun t => (ss.flatMap fun s => ns.map fun n => (s, n)).map
    fun p => (t, p)
  congr 1
  funext t
  rw [List.map_flatMap]
  congr 1
  funext s
  rw [List.map_map]
  rfl

theorem length_flatMap_const {α β : Type} (l : List α) (g : α → List β) (c : ℕ)
    (hg : ∀ x, (g x).length = c) : (l.flatMap g).length = l.length * c := by
  induction l with
  | nil => simp
  | cons a as ih => simp [List.flatMap_cons, hg, ih, Nat.succ_mul, Nat.add_comm]

/-- Modelled from the spec's claimed iteration order for `materialise()`:
rows produced with scenario outermost, time middle and process name
innermost. This is the comparator definition for the refinement check of
claim C4; the code's `to_dataframe` is compared against it. -/
def spec_scenario_outer_rows (f : Filtration) : List (ℚ × ℤ × String × ℚ) :=
  f.scenarios.enum.flatMap fun sp =>
    f.times.enum.flatMap fun tp =>
      f.process_names.enum.map fun pp =>
        (tp.2, sp.2, pp.2, f.raw_values.get tp.1 sp.1 pp.1)

/-- Counterexample to C4 as stated: on a 2-time, 2-scenario, 1-process
filtration, `to_dataframe` does not produce rows in the claimed
scenario-outermost order (it iterates time outermost). -/
theorem to_dataframe_not_scenario_outer :
    Filtration.to_dataframe ⟨[0, 1], [5, 6], ["X"], ⟨2, 2, 1, [10, 20, 30, 40]⟩⟩ ≠
      spec_scenario_outer_rows ⟨[0, 1], [5, 6], ["X"], ⟨2, 2, 1, [10, 20, 30, 40]⟩⟩ := by
  decide

/-- CLAIM C4 (amended): the materialised output has exactly `S·N·P` rows,
every key triple appears exactly once (the key list is duplicate-free and
contains precisely the triples built from the filtration's axes), and the
rows are produced with time outermost, scenario middle and process name
innermost. -/
theorem to_dataframe_long_format (f : Filtration) (ht : f.times.Nodup)
    (hs : f.scenarios.Nodup) (hp : f.process_names.Nodup) :
    f.to_dataframe.length =
      f.scenarios.length * f.times.length * f.process_names.length ∧
    (f.to_dataframe.map rowKey).Nodup ∧
    (∀ t s n, (t, s, n) ∈ f.to_dataframe.map rowKey ↔
      t ∈ f.times ∧ s ∈ f.scenarios ∧ n ∈ f.process_names) ∧
    f.to_dataframe.map rowKey =
      f.times.flatMap fun t => f.scenarios.flatMap fun s =>
        f.process_names.map fun n => (t, s, n) := by
  have hproj := to_dataframe_map_rowKey f
  have hprod := tripleList_eq_product f.times f.scenarios f.process_names
  refine ⟨?_, ?_, ?_, hproj⟩
  · have hlen : (f.to_dataframe.map rowKey).length = f.to_dataframe.length :=
      List.length_map _ _
    rw [← hlen, hproj]
    have h1 : ∀ t : ℚ, ((f.scenarios.flatMap fun s =>
        f.process_names.map fun n => (t, s, n)).length) =
        f.scenarios.length * f.process_names.length := by
      intro t
      exact length_flatMap_const _ _ _ fun s => List.length_map _ _
    rw [length_flatMap_const _ _ (f.scenarios.length * f.process_names.length) h1]
    ring
  · rw [hproj, hprod]
    exact List.Nodup.product ht (List.Nodup.product hs hp)
  · intro t s n
    rw [hproj, hprod]
    constructor
    · intro hm
      have := List.pair_mem_product.mp hm
      exact ⟨this.1, (List.pair_mem_product.mp this.2).1,
        (List.pair_mem_product.mp this.2).2⟩
    · intro hm
      exact List.pair_mem_product.mpr ⟨hm.1, List.pair_mem_product.mpr ⟨hm.2.1, hm.2.2⟩⟩

/-- Witness for the amended C4 on a concrete 2×2×1 filtration. -/
theorem to_dataframe_long_format_witness :
    ([0, 1] : List ℚ).Nodup ∧ ([5, 6] : List ℤ).Nodup ∧ (["X"] : List String).Nodup ∧
    (Filtration.to_dataframe ⟨[0, 1], [5, 6], ["X"], ⟨2, 2, 1, [10, 20, 30, 40]⟩⟩).length =
      2 * 2 * 1 :=
  ⟨by decide, by decide, by decide,
    (to_dataframe_long_format ⟨[0, 1], [5, 6], ["X"], ⟨2, 2, 1, [10, 20, 30, 40]⟩⟩
      (by decide) (by decide) (by decide)).1⟩

/-- Counterexample to C5 as stated: on a grid with `N = 2` times, `S = 2`
scenarios and `P = 1` process, the element read by `get_raw` at
`(t, s, p) = (0, 1, 0)` is not the element at the claimed flat offset
`s·N·P + t·P + p`. -/
theorem get_raw_offset_not_scenario_major :
    Filtration.get_raw ⟨[0, 1], [5, 6], ["X"], ⟨2, 2, 1, [10, 20, 30, 40]⟩⟩ 0 1 0 ≠
      List.getD [10, 20, 30, 40] (1 * (2 * 1) + 0 * 1 + 0) 0 := by
  decide

/-- CLAIM C5 (amended): the Filtration stores its values as a dense
row-major tensor of shape `(N, S, P)` with process as the innermost
(fastest-varying) axis: for all in-range `t, s, p` the element read by
`get_raw` and written by `set_raw` lives at flat offset
`t·S·P + s·P + p` of the raw storage, which is exactly the
`base_offset` arithmetic the integrator uses on the raw slice. -/
theorem raw_tensor_layout_time_major (times : List ℚ) (scens : List ℤ)
    (names : List String) (data : List ℚ) (t s p : ℕ) (v : ℚ)
    (hlen : data.length = times.length * scens.length * names.length)
    (ht : t < times.length) (hs : s < scens.length) (hp : p < names.length) :
    (Filtration.mk times scens names
        ⟨times.length, scens.length, names.length, data⟩).get_raw t s p =
      data.getD (t * scens.length * names.length + s * names.length + p) 0 ∧
    ((Filtration.mk times scens names
        ⟨times.length, scens.length, names.length, data⟩).set_raw t s p v).raw_values.data =
      data.set (t * scens.length * names.length + s * names.length + p) v ∧
    (∀ q, q < names.length →
      ((data.drop (t * scens.length * names.length + s * names.length)).take
          names.length).getD q 0 =
        (Filtration.mk times scens names
          ⟨times.length, scens.length, names.length, data⟩).get_raw t s q) := by
  refine ⟨rfl, rfl, ?_⟩
  intro q hq
  show _ = data.getD (t * scens.length * names.length + s * names.length + q) 0
  rw [List.getD_eq_getElem?_getD, List.getD_eq_getElem?_getD,
    List.getElem?_take, if_pos hq, List.getElem?_drop]

/-- Witness for the amended C5 at `(t, s, p) = (0, 1, 0)` of a concrete
2×2×1 filtration: the read element sits at flat offset `0·2·1 + 1·1 + 0 = 1`. -/
theorem raw_tensor_layout_time_major_witness :
    (4 : ℕ) = 2 * 2 * 1 ∧ (0 : ℕ) < 2 ∧ (1 : ℕ) < 2 ∧ (0 : ℕ) < 1 ∧
    (Filtration.mk [0, 1] [5, 6] ["X"] ⟨2, 2, 1, [10, 20, 30, 40]⟩).get_raw 0 1 0 =
      List.getD [10, 20, 30, 40] (0 * 2 * 1 + 1 * 1 + 0) 0 :=
  ⟨by decide, by decide, by decide, by decide,
    (raw_tensor_layout_time_major [0, 1] [5, 6] ["X"] [10, 20, 30, 40] 0 1 0 9
      (by decide) (by decide) (by decide) (by decide)).1⟩

/-! ## Claim C6 -/

/-- CLAIM C6: for the Sobol backend, `sample(time_idx, scenario_idx,
increment_idx)` returns element `time_idx·K + increment_idx` of the cached
scrambled scenario vector; when the cached scenario matches, the state
(including the Sobol iterator position) is completely unchanged, and only
when it differs is the cache refilled by consuming exactly one new Sobol
point. -/
theorem sobol_sample_scenario_cache (points : ℕ → List ℚ)
    (scramble : ℕ → List ℚ → List ℚ) (r : SobolRng) (t s i : ℕ) :
    (∀ c, r.last_step = some c → c.scenario_idx = s →
      SobolRng.sample points scramble r t s i =
        (c.values.getD (t * r.num_increments + i) 0, r)) ∧
    ((∀ c, r.last_step = some c → c.scenario_idx ≠ s) →
      SobolRng.sample points scramble r t s i =
        ((scramble r.pos (points r.pos)).getD (t * r.num_increments + i) 0,
          { last_step := some ⟨none, s, scramble r.pos (points r.pos)⟩,
            num_increments := r.num_increments, pos := r.pos + 1 })) := by
  constructor
  · intro c hc hsc
    simp [SobolRng.sample, hc, hsc]
  · intro hmiss
    cases hc : r.last_step with
    | none => simp [SobolRng.sample, SobolRng.refresh_cache, hc]
    | some c =>
      have hne : c.scenario_idx ≠ s := hmiss c hc
      simp [SobolRng.sample, SobolRng.refresh_cache, hc, hne]

/-- Witness for C6: a cache hit on scenario 3 returns element
`t·K + i = 0·2 + 1` of the cached vector without touching the iterator,
and a miss on scenario 4 consumes exactly the point at position 7. -/
theorem sobol_sample_scenario_cache_witness :
    ((SobolRng.mk (some ⟨none, 3, [5, 9]⟩) 2 7).last_step = some ⟨none, 3, [5, 9]⟩ →
      (3 : ℕ) = 3 →
      SobolRng.sample (fun n => [(n : ℚ), (n : ℚ)]) (fun _ v => v)
          (SobolRng.mk (some ⟨none, 3, [5, 9]⟩) 2 7) 0 3 1 =
        (9, SobolRng.mk (some ⟨none, 3, [5, 9]⟩) 2 7)) ∧
    (SobolRng.sample (fun n => [(n : ℚ), (n : ℚ)]) (fun _ v => v)
        (SobolRng.mk (some ⟨none, 3, [5, 9]⟩) 2 7) 0 4 1 =
      (7, SobolRng.mk (some ⟨none, 4, [7, 7]⟩) 2 8)) := by
  have h := sobol_sample_scenario_cache (fun n => [(n : ℚ), (n : ℚ)]) (fun _ v => v)
    (SobolRng.mk (some ⟨none, 3, [5, 9]⟩) 2 7)
  constructor
  · intro _ _
    exact h 0 3 1 |>.1 ⟨none, 3, [5, 9]⟩ rfl rfl
  · have hm := (h 0 4 1).2 (by intro c hc; injection hc with hc2; rw [← hc2]; decide)
    simpa using hm

/-! ## Claim C7 -/

/-- Specification-side Poisson probability terms generated by the source's
recurrence: `P(0) = p0` (the code passes `exp(-lambda)`) and
`P(k) = P(k-1) * lambda / k`. -/
def poissonPmfTerm (p0 lam : ℚ) : ℕ → ℚ
  | 0 => p0
  | k + 1 => poissonPmfTerm p0 lam k * (lam / ((k : ℚ) + 1))

/-- Specification-side partial CDF: the running sum `f` of the loop. -/
def poissonCdf (p0 lam : ℚ) : ℕ → ℚ
  | 0 => p0
  | k + 1 => poissonCdf p0 lam k + poissonPmfTerm p0 lam (k + 1)

theorem poissonLoop_spec (u lam p0 : ℚ) :
    ∀ n k, 200 - k = n → k ≤ 200 →
      k ≤ poissonLoop u lam (poissonPmfTerm p0 lam k) (poissonCdf p0 lam k) k ∧
      poissonLoop u lam (poissonPmfTerm p0 lam k) (poissonCdf p0 lam k) k ≤ 200 ∧
      (∀ j, k ≤ j →
        j < poissonLoop u lam (poissonPmfTerm p0 lam k) (poissonCdf p0 lam k) k →
        poissonCdf p0 lam j < u) ∧
      (u ≤ poissonCdf p0 lam
          (poissonLoop u lam (poissonPmfTerm p0 lam k) (poissonCdf p0 lam k) k) ∨
        poissonLoop u lam (poissonPmfTerm p0 lam k) (poissonCdf p0 lam k) k = 200) := by
  intro n
  induction n with
  | zero =>
    intro k hn hk
    have hk200 : k = 200 := by omega
    subst hk200
    rw [poissonLoop]
    simp only [show ¬(u > poissonCdf p0 lam 200 ∧ 200 < 200) from fun h => by omega]
    exact ⟨le_refl _, le_refl _, fun j h1 h2 => absurd (lt_of_le_of_lt h1 h2) (lt_irrefl _),
      Or.inr rfl⟩
  | succ n ih =>
    intro k hn hk
    rw [poissonLoop]
    by_cases hcond : u > poissonCdf p0 lam k ∧ k < 200
    · rw [if_pos hcond]
      have hp : poissonPmfTerm p0 lam k * (lam / ((k : ℚ) + 1)) =
          poissonPmfTerm p0 lam (k + 1) := rfl
      have hf : poissonCdf p0 lam k + poissonPmfTerm p0 lam (k + 1) =
          poissonCdf p0 lam (k + 1) := rfl
      rw [hp, hf]
      obtain ⟨h1, h2, h3, h4⟩ := ih (k + 1) (by omega) (by omega)
      refine ⟨by omega, h2, ?_, h4⟩
      intro j hkj hjr
      rcases Nat.eq_or_lt_of_le hkj with heq | hlt
      · subst heq
        exact hcond.1
      · exact h3 j hlt hjr
    · rw [if_neg hcond]
      refine ⟨le_refl _, hk, fun j h1 h2 => absurd (lt_of_le_of_lt h1 h2) (lt_irrefl _), ?_⟩
      by_cases hu : u ≤ poissonCdf p0 lam k
      · exact Or.inl hu
      · have hge : 200 ≤ k := Nat.le_of_not_lt fun hklt => hcond ⟨lt_of_not_le hu, hklt⟩
        exact Or.inr (Nat.le_antisymm hk hge)

/-- CLAIM C7: on a cache miss with uniform `u` and effective intensity
`lambda * dts[time_idx] > 0`, the Jump incrementor's sampled value is the
result of the inverse Poisson CDF scan: it never exceeds 200, every value
below it has partial CDF (built by the recurrence `P(k) = P(k-1)·λ/k` from
`P(0) = exp(-λ)`) strictly below `u`, and whenever any `m ≤ 200` reaches
`u` the returned value itself does. -/
theorem jump_sample_inverse_poisson {R : Type} (ops : FloatOps)
    (rngSample : ℕ → ℕ → ℕ → R → ℚ × R) (j : JumpIncrementor) (t s : ℕ) (rng : R)
    (hmiss : ∀ c, j.last = some c → ¬(c.scenario_idx = s ∧ c.time_idx = t))
    (hpos : 0 < j.lambda * j.dts.getD t 0) :
    (JumpIncrementor.sample ops rngSample j t s rng).1 =
      ((fast_inverse_poisson_cdf ops (rngSample t s j.idx rng).1
        (j.lambda * j.dts.getD t 0) : ℕ) : ℚ) ∧
    fast_inverse_poisson_cdf ops (rngSample t s j.idx rng).1
      (j.lambda * j.dts.getD t 0) ≤ 200 ∧
    (∀ m, m < fast_inverse_poisson_cdf ops (rngSample t s j.idx rng).1
        (j.lambda * j.dts.getD t 0) →
      poissonCdf (ops.exp (-(j.lambda * j.dts.getD t 0)))
        (j.lambda * j.dts.getD t 0) m < (rngSample t s j.idx rng).1) ∧
    ((∃ m, m ≤ 200 ∧ (rngSample t s j.idx rng).1 ≤
        poissonCdf (ops.exp (-(j.lambda * j.dts.getD t 0)))
          (j.lambda * j.dts.getD t 0) m) →
      (rngSample t s j.idx rng).1 ≤
        poissonCdf (ops.exp (-(j.lambda * j.dts.getD t 0)))
          (j.lambda * j.dts.getD t 0)
          (fast_inverse_poisson_cdf ops (rngSample t s j.idx rng).1
            (j.lambda * j.dts.getD t 0))) := by
  set lam := j.lambda * j.dts.getD t 0 with hlam
  set u := (rngSample t s j.idx rng).1 with hu
  set p0 := ops.exp (-lam) with hp0
  have hloop := poissonLoop_spec u lam p0 200 0 rfl (by omega)
  have hfast : fast_inverse_poisson_cdf ops u lam = poissonLoop u lam p0 p0 0 := by
    rw [fast_inverse_poisson_cdf, if_neg (not_le.mpr hpos)]
  have hpm : poissonPmfTerm p0 lam 0 = p0 := rfl
  have hcd : poissonCdf p0 lam 0 = p0 := rfl
  rw [hpm, hcd] at hloop
  obtain ⟨_, h2, h3, h4⟩ := hloop
  refine ⟨?_, by rw [hfast]; exact h2, ?_, ?_⟩
  · cases hlast : j.last with
    | none => simp [JumpIncrementor.sample, hlast, hlam]
    | some c =>
      have := hmiss c hlast
      simp [JumpIncrementor.sample, hlast, this, hlam]
  · intro m hm
    rw [hfast] at hm
    exact h3 m (Nat.zero_le m) hm
  · intro hex
    rw [hfast]
    rcases h4 with h | h
    · exact h
    · obtain ⟨m, hm200, hmu⟩ := hex
      rcases Nat.eq_or_lt_of_le hm200 with heq | hlt
      · rw [← h] at heq
        rw [heq] at hmu
        exact hmu
      · exact absurd hmu (not_le.mpr (h3 m (Nat.zero_le m) (by omega)))

/-- Witness for C7 at a concrete miss: `lambda = 1`, cache empty, with a
model `exp` returning 1 at every argument, so the scan stops at `k = 0`. -/
theorem jump_sample_inverse_poisson_witness :
    (∀ c, (JumpIncrementor.mk 1 none 0 [1]).last = some c →
      ¬(c.scenario_idx = 0 ∧ c.time_idx = 0)) ∧
    (0 : ℚ) < (JumpIncrementor.mk 1 none 0 [1]).lambda *
      (JumpIncrementor.mk 1 none 0 [1]).dts.getD 0 0 ∧
    (JumpIncrementor.sample ⟨id, id, fun _ => 1⟩ (fun _ _ _ r => ((1 : ℚ) / 2, r))
        (JumpIncrementor.mk 1 none 0 [1]) 0 0 (0 : ℕ)).1 =
      ((fast_inverse_poisson_cdf ⟨id, id, fun _ => 1⟩ (1 / 2) 1 : ℕ) : ℚ) := by
  refine ⟨fun c hc => by simp at hc, by norm_num, ?_⟩
  have h := (jump_sample_inverse_poisson ⟨id, id, fun _ => 1⟩
    (fun _ _ _ r => ((1 : ℚ) / 2, r)) (JumpIncrementor.mk 1 none 0 [1]) 0 0 (0 : ℕ)
    (fun c hc => by simp at hc) (by norm_num)).1
  simpa using h

/-! ## Claim C8 -/

/-- A sequence of indexed writes applied left to right to a flat buffer. -/
def applyWrites : List (ℕ × ℚ) → List ℚ → List ℚ
  | [], d => d
  | w :: ws, d => applyWrites ws (d.set w.1 w.2)

theorem applyWrites_length (ws : List (ℕ × ℚ)) (d : List ℚ) :
    (applyWrites ws d).length = d.length := by
  induction ws generalizing d with
  | nil => rfl
  | cons w ws ih => simp [applyWrites, ih]

theorem applyWrites_append (ws1 ws2 : List (ℕ × ℚ)) (d : List ℚ) :
    applyWrites (ws1 ++ ws2) d = applyWrites ws2 (applyWrites ws1 d) := by
  induction ws1 generalizing d with
  | nil => rfl
  | cons w ws ih => simp [applyWrites, ih]

theorem applyWrites_getD_of_not_mem (ws : List (ℕ × ℚ)) (d : List ℚ) (q : ℕ)
    (h : ∀ w ∈ ws, w.1 ≠ q) : (applyWrites ws d).getD q 0 = d.getD q 0 := by
  induction ws generalizing d with
  | nil => rfl
  | cons w ws ih =>
    rw [applyWrites, ih _ fun x hx => h x (List.mem_cons_of_mem w hx),
      getD_set_ne _ _ _ _ (h w (List.mem_cons_self w ws))]

theorem applyWrites_getD_stable (ws : List (ℕ × ℚ)) (d : List ℚ) (q : ℕ) (v : ℚ)
    (hq : q < d.length) (hstable : ∀ w ∈ ws, w.1 = q → w.2 = v)
    (hd : d.getD q 0 = v) : (applyWrites ws d).getD q 0 = v := by
  induction ws generalizing d with
  | nil => exact hd
  | cons w ws ih =>
    rw [applyWrites]
    by_cases hw : w.1 = q
    · refine ih (d.set w.1 w.2) (by simpa using hq)
        (fun x hx => hstable x (List.mem_cons_of_mem w hx)) ?_
      rw [hw, getD_set_eq _ _ _ hq]
      exact hstable w (List.mem_cons_self w ws) hw
    · refine ih (d.set w.1 w.2) (by simpa using hq)
        (fun x hx => hstable x (List.mem_cons_of_mem w hx)) ?_
      rw [getD_set_ne _ _ _ _ hw]
      exact hd

theorem applyWrites_getD_of_mem (ws : List (ℕ × ℚ)) (d : List ℚ) (q : ℕ) (v : ℚ)
    (hq : q < d.length) (hmem : (q, v) ∈ ws)
    (hstable : ∀ w ∈ ws, w.1 = q → w.2 = v) :
    (applyWrites ws d).getD q 0 = v := by
  obtain ⟨l1, l2, rfl⟩ := List.append_of_mem hmem
  rw [show l1 ++ (q, v) :: l2 = (l1 ++ [(q, v)]) ++ l2 by simp, applyWrites_append]
  refine applyWrites_getD_stable l2 _ q v ?_
    (fun x hx hxq => hstable x (by simp [hx]) hxq) ?_
  · rw [applyWrites_length]; exact hq
  · rw [applyWrites_append]
    rw [show applyWrites [(q, v)] (applyWrites l1 d) =
      (applyWrites l1 d).set q v from rfl]
    exact getD_set_eq _ _ _ (by rw [applyWrites_length]; exact hq)

theorem lastIdxOf_get_eq {α : Type} [DecidableEq α] (xs : List α) (x : α) (i : ℕ)
    (h : lastIdxOf xs x = some i) (hi : i < xs.length) : xs.get ⟨i, hi⟩ = x := by
  induction xs generalizing i with
  | nil => simp [lastIdxOf] at h
  | cons y ys ih =>
    simp only [lastIdxOf] at h
    cases hh : lastIdxOf ys x with
    | some k =>
      rw [hh] at h
      simp only [Option.some.injEq] at h
      subst h
      exact ih k hh (lastIdxOf_lt_length ys x k hh)
    | none =>
      rw [hh] at h
      by_cases hyx : y = x
      · rw [if_pos hyx] at h
        have h0 : i = 0 := by injection h with hinj; omega
        subst h0
        simpa using hyx
      · rw [if_neg hyx] at h
        simp at h

theorem lastIdxOf_of_mem {α : Type} [DecidableEq α] (xs : List α) (x : α)
    (h : x ∈ xs) : ∃ i, lastIdxOf xs x = some i := by
  cases hh : lastIdxOf xs x with
  | none => exact absurd h ((lastIdxOf_eq_none_iff xs x).mp hh)
  | some i => exact ⟨i, rfl⟩

theorem set_value_resolved (times : List ℚ) (scens : List ℤ) (names : List String)
    (a : Array3) (t0 : ℚ) (sc : ℤ) (nm : String) (v : ℚ) (ti si pj : ℕ)
    (ht : lastIdxOf times t0 = some ti) (hs : lastIdxOf scens sc = some si)
    (hn : lastIdxOf names nm = some pj) :
    Filtration.set_value ⟨times, scens, names, a⟩ t0 sc nm v =
      ⟨times, scens, names, a.setv ti si pj v⟩ := by
  simp [Filtration.set_value, Filtration.indices, Filtration.time_idx_map,
    Filtration.scenario_idx_map, Filtration.process_name_idx_map, ht, hs, hn]

/-- The flat write positions produced by one scenario block of
`set_initial_values`, and the full write list over all scenarios. -/
def initWrites (scens : List ℤ) (names : List String) (a : Array3)
    (vals : String → Option ℚ) (ti : ℕ) : List (ℕ × ℚ) :=
  scens.flatMap fun sc =>
    names.map fun nm =>
      (ti * a.d2 * a.d3 + (lastIdxOf scens sc).getD 0 * a.d3 +
          (lastIdxOf names nm).getD 0,
        (vals nm).getD 0)

theorem inner_fold_as_writes (times : List ℚ) (scens : List ℤ) (names : List String)
    (vals : String → Option ℚ) (t0 : ℚ) (sc : ℤ) (ti si : ℕ)
    (ht : lastIdxOf times t0 = some ti) (hs : lastIdxOf scens sc = some si) :
    ∀ (nms : List String) (a : Array3), (∀ nm ∈ nms, nm ∈ names) →
      nms.foldl (fun (acc : Filtration) nm => acc.set_value t0 sc nm ((vals nm).getD 0))
          (⟨times, scens, names, a⟩ : Filtration) =
        ⟨times, scens, names,
          { a with
            data := applyWrites
                (nms.map fun nm =>
                  (ti * a.d2 * a.d3 + si * a.d3 + (lastIdxOf names nm).getD 0,
                    (vals nm).getD 0)) a.data }⟩ := by
  intro nms
  induction nms with
  | nil => intro a _; rfl
  | cons nm nms ih =>
    intro a hmem
    obtain ⟨pj, hpj⟩ := lastIdxOf_of_mem names nm (hmem nm (List.mem_cons_self nm nms))
    rw [List.foldl_cons, set_value_resolved times scens names a t0 sc nm _ ti si pj ht hs hpj]
    rw [ih (a.setv ti si pj ((vals nm).getD 0))
      (fun x hx => hmem x (List.mem_cons_of_mem nm hx))]
    simp only [Array3.setv, List.map_cons, applyWrites, hpj, Option.getD_some]

theorem outer_fold_as_writes (times : List ℚ) (scens : List ℤ) (names : List String)
    (vals : String → Option ℚ) (t0 : ℚ) (ti : ℕ)
    (ht : lastIdxOf times t0 = some ti) :
    ∀ (scList : List ℤ) (a : Array3), (∀ sc ∈ scList, sc ∈ scens) →
      scList.foldl
          (fun (acc : Filtration) scenario =>
            names.foldl
              (fun (acc2 : Filtration) nm =>
                acc2.set_value t0 scenario nm ((vals nm).getD 0))
              acc)
          (⟨times, scens, names, a⟩ : Filtration) =
        ⟨times, scens, names,
          { a with
            data := applyWrites
                (scList.flatMap fun sc =>
                  names.map fun nm =>
                    (ti * a.d2 * a.d3 + (lastIdxOf scens sc).getD 0 * a.d3 +
                        (lastIdxOf names nm).getD 0,
                      (vals nm).getD 0)) a.data }⟩ := by
  intro scList
  induction scList with
  | nil => intro a _; rfl
  | cons sc scs ih =>
    intro a hmem
    obtain ⟨si, hsi⟩ := lastIdxOf_of_mem scens sc (hmem sc (List.mem_cons_self sc scs))
    rw [List.foldl_cons,
      inner_fold_as_writes times scens names vals t0 sc ti si ht hsi names a
        (fun _ hx => hx)]
    rw [ih _ (fun x hx => hmem x (List.mem_cons_of_mem sc hx))]
    simp only [List.flatMap_cons, applyWrites_append, hsi, Option.getD_some]

theorem euclid_pair_eq (P si si' pj pj' : ℕ) (h : si * P + pj = si' * P + pj')
    (hj : pj < P) (hj' : pj' < P) : si = si' ∧ pj = pj' := by
  have hP : 0 < P := Nat.pos_of_ne_zero fun h0 => by omega
  have hdiv : ∀ x y : ℕ, y < P → (x * P + y) / P = x := by
    intro x y hy
    rw [Nat.mul_comm, Nat.mul_add_div hP, Nat.div_eq_of_lt hy, Nat.add_zero]
  have hsi : si = si' := by
    have h1 := hdiv si pj hj
    have h2 := hdiv si' pj' hj'
    rw [← h1, ← h2, h]
  refine ⟨hsi, ?_⟩
  subst hsi
  exact Nat.add_left_cancel h

theorem initWrites_shape (times : List ℚ) (scens : List ℤ) (names : List String)
    (vals : String → Option ℚ) (w : ℕ × ℚ)
    (hw : w ∈ scens.flatMap fun sc =>
      names.map fun nm =>
        ((0 : ℕ) * scens.length * names.length +
            (lastIdxOf scens sc).getD 0 * names.length + (lastIdxOf names nm).getD 0,
          (vals nm).getD 0)) :
    ∃ si' pj', ∃ (_ : si' < scens.length) (hpj' : pj' < names.length),
      w.1 = si' * names.length + pj' ∧
      w.2 = (vals (names.get ⟨pj', hpj'⟩)).getD 0 := by
  rw [List.mem_flatMap] at hw
  obtain ⟨sc, hsc, hw⟩ := hw
  rw [List.mem_map] at hw
  obtain ⟨nm, hnm, hw⟩ := hw
  obtain ⟨si', hsi'⟩ := lastIdxOf_of_mem scens sc hsc
  obtain ⟨pj', hpj'⟩ := lastIdxOf_of_mem names nm hnm
  have hsl : si' < scens.length := lastIdxOf_lt_length scens sc si' hsi'
  have hpl : pj' < names.length := lastIdxOf_lt_length names nm pj' hpj'
  refine ⟨si', pj', hsl, hpl, ?_, ?_⟩
  · rw [← hw]
    simp [hsi', hpj']
  · rw [← hw]
    show (vals nm).getD 0 = (vals (names.get ⟨pj', hpl⟩)).getD 0
    rw [lastIdxOf_get_eq names nm pj' hpj' hpl]

/-- CLAIM C8: a Filtration constructed over a zero-filled tensor (as every
construction site does, via `Array3::zeros`) with an initial-value mapping
has, in its time-0 row, the caller-supplied initial value for every
scenario and every process (0 for names absent from the mapping), and every
entry of every row `t > 0` is zero. -/
theorem filtration_new_row0_initial_values (times : List ℚ) (scens : List ℤ)
    (names : List String) (vals : String → Option ℚ) (hN : 0 < times.length)
    (hnt : times.Nodup) (hns : scens.Nodup) (hnn : names.Nodup) :
    (∀ si pj (hsi : si < scens.length) (hpj : pj < names.length),
      (Filtration.new times scens names
          ⟨times.length, scens.length, names.length,
            List.replicate (times.length * scens.length * names.length) 0⟩
          (some vals)).get_raw 0 si pj = (vals (names.get ⟨pj, hpj⟩)).getD 0) ∧
    (∀ t si pj, 0 < t → t < times.length → si < scens.length →
      pj < names.length →
      (Filtration.new times scens names
          ⟨times.length, scens.length, names.length,
            List.replicate (times.length * scens.length * names.length) 0⟩
          (some vals)).get_raw t si pj = 0) := by
  have ht0 : lastIdxOf times (times.getD 0 0) = some 0 := by
    have hget : times.getD 0 0 = times.get ⟨0, hN⟩ := by
      rw [List.getD_eq_getElem?_getD, List.getElem?_eq_getElem hN]
      rfl
    rw [hget]
    exact lastIdxOf_of_nodup_get times hnt 0 hN
  have hout := outer_fold_as_writes times scens names vals (times.getD 0 0) 0 ht0
    scens ⟨times.length, scens.length, names.length,
      List.replicate (times.length * scens.length * names.length) 0⟩
    (fun _ h => h)
  have hF : Filtration.new times scens names
      ⟨times.length, scens.length, names.length,
        List.replicate (times.length * scens.length * names.length) 0⟩
      (some vals) =
      ⟨times, scens, names,
        ⟨times.length, scens.length, names.length,
          applyWrites
            (scens.flatMap fun sc =>
              names.map fun nm =>
                ((0 : ℕ) * scens.length * names.length +
                    (lastIdxOf scens sc).getD 0 * names.length +
                    (lastIdxOf names nm).getD 0,
                  (vals nm).getD 0))
            (List.replicate (times.length * scens.length * names.length) 0)⟩⟩ := by
    exact hout
  have hwshape := initWrites_shape times scens names vals
  have hlenrep : (List.replicate
      (times.length * scens.length * names.length) (0 : ℚ)).length =
      times.length * scens.length * names.length := List.length_replicate _ _
  have hbound : ∀ si pj, si < scens.length → pj < names.length →
      si * names.length + pj < times.length * scens.length * names.length := by
    intro si pj hsi hpj
    have h1 : si * names.length + pj < (si + 1) * names.length := by
      rw [Nat.succ_mul]
      omega
    have h2 : (si + 1) * names.length ≤ scens.length * names.length :=
      Nat.mul_le_mul_right names.length hsi
    have h3 : scens.length * names.length ≤
        times.length * scens.length * names.length := by
      have h4 : 1 * (scens.length * names.length) ≤
          times.length * (scens.length * names.length) :=
        Nat.mul_le_mul_right (scens.length * names.length) hN
      calc scens.length * names.length
          = 1 * (scens.length * names.length) := by ring
        _ ≤ times.length * (scens.length * names.length) := h4
        _ = times.length * scens.length * names.length := by ring
    omega
  constructor
  · intro si pj hsi hpj
    rw [hF]
    show (applyWrites
        (scens.flatMap fun sc =>
          names.map fun nm =>
            ((0 : ℕ) * scens.length * names.length +
                (lastIdxOf scens sc).getD 0 * names.length +
                (lastIdxOf names nm).getD 0,
              (vals nm).getD 0))
        (List.replicate (times.length * scens.length * names.length) 0)).getD
      (0 * scens.length * names.length + si * names.length + pj) 0 = _
    have hq : 0 * scens.length * names.length + si * names.length + pj =
        si * names.length + pj := by ring
    rw [hq]
    apply applyWrites_getD_of_mem _ _ _ _
      (by rw [hlenrep]; exact hbound si pj hsi hpj)
    · rw [List.mem_flatMap]
      refine ⟨scens.get ⟨si, hsi⟩, List.get_mem scens si hsi, ?_⟩
      rw [List.mem_map]
      refine ⟨names.get ⟨pj, hpj⟩, List.get_mem names pj hpj, ?_⟩
      rw [lastIdxOf_of_nodup_get scens hns si hsi,
        lastIdxOf_of_nodup_get names hnn pj hpj]
      simp [hq]
    · intro w hw hwq
      obtain ⟨si', pj', hsl, hpl, hw1, hw2⟩ := hwshape w hw
      rw [hw1] at hwq
      obtain ⟨hse, hpe⟩ := euclid_pair_eq names.length si' si pj' pj hwq hpl hpj
      subst hse hpe
      exact hw2
  · intro t si pj ht htN hsi hpj
    rw [hF]
    show (applyWrites
        (scens.flatMap fun sc =>
          names.map fun nm =>
            ((0 : ℕ) * scens.length * names.length +
                (lastIdxOf scens sc).getD 0 * names.length +
                (lastIdxOf names nm).getD 0,
              (vals nm).getD 0))
        (List.replicate (times.length * scens.length * names.length) 0)).getD
      (t * scens.length * names.length + si * names.length + pj) 0 = 0
    rw [applyWrites_getD_of_not_mem]
    · rw [List.getD_eq_getElem?_getD]
      cases hge : (List.replicate (times.length * scens.length * names.length)
          (0 : ℚ))[t * scens.length * names.length + si * names.length + pj]? with
      | none => rfl
      | some x =>
        have hx := List.getElem?_mem hge
        rw [List.eq_of_mem_replicate hx]
        rfl
    · intro w hw
      obtain ⟨si', pj', hsl, hpl, hw1, _⟩ := hwshape w hw
      rw [hw1]
      have hlt : si' * names.length + pj' < scens.length * names.length := by
        have h1 : si' * names.length + pj' < (si' + 1) * names.length := by
          rw [Nat.succ_mul]; omega
        have h2 : (si' + 1) * names.length ≤ scens.length * names.length :=
          Nat.mul_le_mul_right names.length hsl
        omega
      have hge2 : scens.length * names.length ≤
          t * scens.length * names.length + si * names.length + pj := by
        have h4 : 1 * (scens.length * names.length) ≤
            t * (scens.length * names.length) :=
          Nat.mul_le_mul_right (scens.length * names.length) ht
        have h3 : scens.length * names.length ≤ t * scens.length * names.length := by
          calc scens.length * names.length
              = 1 * (scens.length * names.length) := by ring
            _ ≤ t * (scens.length * names.length) := h4
            _ = t * scens.length * names.length := by ring
        omega
      omega

/-- Witness for C8 on times `[0, 1]`, one scenario, processes `X, Y` with
only `X` given an initial value: row 0 holds `(3, 0)` and row 1 is zero. -/
theorem filtration_new_row0_initial_values_witness :
    (0 : ℕ) < 2 ∧
    (Filtration.new [0, 1] [7] ["X", "Y"]
        ⟨2, 1, 2, List.replicate (2 * 1 * 2) 0⟩
        (some fun nm => if nm = "X" then some 3 else none)).get_raw 0 0 0 =
      ((if ("X" : String) = "X" then some (3 : ℚ) else none).getD 0) ∧
    (Filtration.new [0, 1] [7] ["X", "Y"]
        ⟨2, 1, 2, List.replicate (2 * 1 * 2) 0⟩
        (some fun nm => if nm = "X" then some 3 else none)).get_raw 1 0 1 = 0 := by
  have h := filtration_new_row0_initial_values [0, 1] [7] ["X", "Y"]
    (fun nm => if nm = "X" then some 3 else none) (by norm_num)
    (by decide) (by decide) (by decide)
  exact ⟨by norm_num, h.1 0 0 (by norm_num) (by norm_num),
    h.2 1 0 1 (by norm_num) (by norm_num) (by norm_num) (by norm_num)⟩

/-! ## Shared machinery for the integrator claims (C2, C3) -/

theorem incrementor_sample_after {R : Type} (ops : FloatOps)
    (rngSample : ℕ → ℕ → ℕ → R → ℚ × R) (inc : Incrementor) (t s : ℕ) (rng : R)
    (rng2 : R) :
    Incrementor.sample ops rngSample
        (Incrementor.sample ops rngSample inc t s rng).2.1 t s rng2 =
      ((Incrementor.sample ops rngSample inc t s rng).1,
        (Incrementor.sample ops rngSample inc t s rng).2.1, rng2) := by
  cases inc with
  | time ti => simp [Incrementor.sample, TimeIncrementor.sample]
  | wiener w =>
    cases hw : w.last with
    | none => simp [Incrementor.sample, WienerIncrementor.sample, hw]
    | some last =>
      by_cases hk : last.scenario_idx = s ∧ last.time_idx = t
      · simp [Incrementor.sample, WienerIncrementor.sample, hw, hk]
      · simp [Incrementor.sample, WienerIncrementor.sample, hw, hk]
  | jump j =>
    cases hj : j.last with
    | none => simp [Incrementor.sample, JumpIncrementor.sample, hj]
    | some last =>
      by_cases hk : last.scenario_idx = s ∧ last.time_idx = t
      · simp [Incrementor.sample, JumpIncrementor.sample, hj, hk]
      · simp [Incrementor.sample, JumpIncrementor.sample, hj, hk]

theorem incLoop_spec {R : Type} (ops : FloatOps)
    (rngSample : ℕ → ℕ → ℕ → R → ℚ × R) (g1 : ℕ → ℚ → ℚ → ℚ)
    (coeffs1 : List Coefficient) (fA1 : Filtration) (sA1 : List ℚ) (tA1 : ℚ)
    (scA1 : ℤ) (t s : ℕ) :
    ∀ (incs : List Incrementor) (idx : ℕ) (rng : R),
      ∃ ds : List ℚ,
        ds.length = incs.length ∧
        (incLoop ops rngSample g1 coeffs1 fA1 sA1 tA1 scA1 t s idx incs rng).1 =
          termSum g1 coeffs1 fA1 sA1 tA1 scA1 idx ds ∧
        (∀ (g2 : ℕ → ℚ → ℚ → ℚ) (coeffs2 : List Coefficient) (fA2 : Filtration)
            (sA2 : List ℚ) (tA2 : ℚ) (scA2 : ℤ) (rng2 : R),
          incLoop ops rngSample g2 coeffs2 fA2 sA2 tA2 scA2 t s idx
              (incLoop ops rngSample g1 coeffs1 fA1 sA1 tA1 scA1 t s idx incs rng).2.1
              rng2 =
            (termSum g2 coeffs2 fA2 sA2 tA2 scA2 idx ds,
              (incLoop ops rngSample g1 coeffs1 fA1 sA1 tA1 scA1 t s idx incs rng).2.1,
              rng2)) ∧
        (∀ ti, incs.head? = some (.time ti) → ds.head? = some (ti.dts.getD t 0)) := by
  intro incs
  induction incs with
  | nil =>
    intro idx rng
    exact ⟨[], rfl, rfl, fun g2 c2 f2 s2 t2 sc2 rng2 => rfl, fun ti h => by simp at h⟩
  | cons inc rest ih =>
    intro idx rng
    obtain ⟨ds, hlen, hsum, hstable, _⟩ :=
      ih (idx + 1) (Incrementor.sample ops rngSample inc t s rng).2.2
    refine ⟨(Incrementor.sample ops rngSample inc t s rng).1 :: ds, by simp [hlen],
      ?_, ?_, ?_⟩
    · show (incLoop ops rngSample g1 coeffs1 fA1 sA1 tA1 scA1 t s idx
        (inc :: rest) rng).1 = _
      rw [incLoop]
      simp only [termSum, hsum]
    · intro g2 c2 f2 s2 t2 sc2 rng2
      show incLoop ops rngSample g2 c2 f2 s2 t2 sc2 t s idx
          ((incLoop ops rngSample g1 coeffs1 fA1 sA1 tA1 scA1 t s idx
            (inc :: rest) rng).2.1) rng2 = _
      have hcons : (incLoop ops rngSample g1 coeffs1 fA1 sA1 tA1 scA1 t s idx
          (inc :: rest) rng).2.1 =
          (Incrementor.sample ops rngSample inc t s rng).2.1 ::
            (incLoop ops rngSample g1 coeffs1 fA1 sA1 tA1 scA1 t s (idx + 1) rest
              (Incrementor.sample ops rngSample inc t s rng).2.2).2.1 := by
        rw [incLoop]
      rw [hcons, incLoop, incrementor_sample_after]
      simp only [hstable g2 c2 f2 s2 t2 sc2 rng2, termSum]
    · intro ti hti
      simp only [List.head?_cons, Option.some.injEq] at hti
      subst hti
      simp [Incrementor.sample, TimeIncrementor.sample]

theorem eulerProcLoop_spec {R : Type} (ops : FloatOps)
    (rngSample : ℕ → ℕ → ℕ → R → ℚ × R) (f : Filtration) (cv : List ℚ)
    (t_start : ℚ) (scenario : ℤ) (time_idx scenario_idx : ℕ) (pidx : List ℕ) :
    ∀ (procs : List LevyProcess) (i0 : ℕ) (rng : R),
      ∃ ds : List (List ℚ),
        ds.length = procs.length ∧
        (eulerProcLoop ops rngSample f cv t_start scenario time_idx scenario_idx
          pidx i0 procs rng).2.2.length = procs.length ∧
        (∀ k, k < procs.length →
          (eulerProcLoop ops rngSample f cv t_start scenario time_idx scenario_idx
              pidx i0 procs rng).2.2.getD k 0 =
            cv.getD (pidx.getD (i0 + k) 0) 0 +
              termSum (fun _ c d => c * d) (procs.getD k default).coefficients f cv
                t_start scenario 0 (ds.getD k [])) := by
  intro procs
  induction procs with
  | nil =>
    intro i0 rng
    exact ⟨[], rfl, rfl, fun k hk => absurd hk (by simp)⟩
  | cons p ps ih =>
    intro i0 rng
    obtain ⟨ds0, _, hsum0, _, _⟩ := incLoop_spec ops rngSample (fun _ c d => c * d)
      p.coefficients f cv t_start scenario time_idx scenario_idx p.incrementors 0 rng
    obtain ⟨dstail, hlen, hreslen, hres⟩ := ih (i0 + 1)
      (incLoop ops rngSample (fun _ c d => c * d) p.coefficients f cv t_start
        scenario time_idx scenario_idx 0 p.incrementors rng).2.2
    refine ⟨ds0 :: dstail, by simp [hlen], ?_, ?_⟩
    · show (_ :: (eulerProcLoop ops rngSample f cv t_start scenario time_idx
        scenario_idx pidx (i0 + 1) ps _).2.2).length = _
      simp [hreslen]
    · intro k hk
      cases k with
      | zero =>
        show ((cv.getD (pidx.getD i0 0) 0 + _) :: _).getD 0 0 = _
        simp only [List.getD_cons_zero, Nat.add_zero]
        rw [hsum0]
      | succ k =>
        show (_ :: (eulerProcLoop ops rngSample f cv t_start scenario time_idx
          scenario_idx pidx (i0 + 1) ps _).2.2).getD (k + 1) 0 = _
        rw [List.getD_cons_succ]
        rw [hres k (by simpa using hk)]
        have h1 : i0 + 1 + k = i0 + (k + 1) := by omega
        rw [h1]
        rfl

theorem writeResults_length (next : ℕ) :
    ∀ (ps : List ℕ) (data : List ℚ) (i0 : ℕ) (results : List ℚ),
      (writeResults next data i0 ps results).length = data.length := by
  intro ps
  induction ps with
  | nil => intro data i0 results; rfl
  | cons p ps ih =>
    intro data i0 results
    show (writeResults next (data.set (next + p) (results.getD i0 0)) (i0 + 1)
      ps results).length = _
    rw [ih, List.length_set]

theorem writeResults_getD_untouched (next : ℕ) :
    ∀ (ps : List ℕ) (data : List ℚ) (i0 : ℕ) (results : List ℚ) (q : ℕ),
      (∀ p ∈ ps, next + p ≠ q) →
      (writeResults next data i0 ps results).getD q 0 = data.getD q 0 := by
  intro ps
  induction ps with
  | nil => intro data i0 results q _; rfl
  | cons p ps ih =>
    intro data i0 results q hq
    show (writeResults next (data.set (next + p) (results.getD i0 0)) (i0 + 1)
      ps results).getD q 0 = _
    rw [ih _ _ _ _ fun x hx => hq x (List.mem_cons_of_mem p hx),
      getD_set_ne _ _ _ _ (hq p (List.mem_cons_self p ps))]

theorem writeResults_getD_at (next : ℕ) :
    ∀ (ps : List ℕ) (data : List ℚ) (i0 : ℕ) (results : List ℚ) (i : ℕ),
      i < ps.length → ps.Nodup → next + ps.getD i 0 < data.length →
      (writeResults next data i0 ps results).getD (next + ps.getD i 0) 0 =
        results.getD (i0 + i) 0 := by
  intro ps
  induction ps with
  | nil => intro data i0 results i hi; simp at hi
  | cons p ps ih =>
    intro data i0 results i hi hnd hlt
    cases i with
    | zero =>
      show (writeResults next (data.set (next + p) (results.getD i0 0)) (i0 + 1)
        ps results).getD (next + p) 0 = _
      rw [writeResults_getD_untouched next ps _ _ _ _ ?_]
      · rw [getD_set_eq _ _ _ (by simpa using hlt), Nat.add_zero]
      · intro x hx
        have hne : x ≠ p := fun he => (List.nodup_cons.mp hnd).1 (he ▸ hx)
        omega
    | succ i =>
      show (writeResults next (data.set (next + p) (results.getD i0 0)) (i0 + 1)
        ps results).getD (next + ps.getD i 0) 0 = _
      rw [ih _ _ _ i (by simpa using hi) (List.nodup_cons.mp hnd).2
        (by simpa using hlt)]
      congr 1
      omega

theorem offset_lt (N S P t s p : ℕ) (ht : t < N) (hs : s < S) (hp : p < P) :
    t * S * P + s * P + p < N * S * P := by
  have h1 : t * S * P + s * P + p < t * S * P + (s + 1) * P := by
    rw [Nat.succ_mul]
    omega
  have h2 : t * S * P + (s + 1) * P ≤ (t + 1) * (S * P) := by
    have : (s + 1) * P ≤ S * P := Nat.mul_le_mul_right P hs
    calc t * S * P + (s + 1) * P ≤ t * S * P + S * P := by omega
      _ = (t + 1) * (S * P) := by ring
  have h3 : (t + 1) * (S * P) ≤ N * (S * P) := Nat.mul_le_mul_right (S * P) ht
  calc t * S * P + s * P + p < t * S * P + (s + 1) * P := h1
    _ ≤ (t + 1) * (S * P) := h2
    _ ≤ N * (S * P) := h3
    _ = N * S * P := by ring

theorem getD_mem_of_lt {α : Type} [Inhabited α] (l : List α) (n : ℕ) (d : α)
    (h : n < l.length) : l.getD n d ∈ l := by
  rw [List.getD_eq_getElem?_getD, List.getElem?_eq_getElem h]
  exact List.getElem_mem h

/-! ## Claim C3 -/

/-- CLAIM C3: the Euler step writes only entries of row `time_idx + 1` of
the stepped scenario — every entry of any other (time, scenario) row is
unchanged — and every written value is computed from the row-`time_idx`
snapshot slice of the unmodified filtration: each process update is
`current + Σ coefficient(f, snapshot, t, scenario) · increment`, where all
coefficient evaluations receive the pre-step filtration and snapshot. -/
theorem euler_step_frame_and_snapshot {R : Type} (ops : FloatOps)
    (rngSample : ℕ → ℕ → ℕ → R → ℚ × R) (f : Filtration)
    (processes : List LevyProcess) (pidx : List ℕ) (t_start : ℚ) (scenario : ℤ)
    (rng : R) (num_scenarios time_idx : ℕ)
    (htime : f.time_idx_map t_start = some time_idx)
    (hd2 : f.raw_values.d2 = num_scenarios)
    (hd3 : f.raw_values.d3 = processes.length)
    (hdata : f.raw_values.data.length =
      f.times.length * num_scenarios * processes.length)
    (htlt : time_idx + 1 < f.times.length)
    (hslt : (scenario - 1).toNat < num_scenarios)
    (hpidx : ∀ p ∈ pidx, p < processes.length)
    (hpnd : pidx.Nodup)
    (hplen : pidx.length = processes.length) :
    ∃ ds : List (List ℚ), ds.length = processes.length ∧
      (∀ t2 s2 p2, t2 < f.times.length → s2 < num_scenarios →
        p2 < processes.length →
        ¬(t2 = time_idx + 1 ∧ s2 = (scenario - 1).toNat) →
        (euler_iteration ops rngSample f processes pidx t_start scenario rng
            num_scenarios).1.get_raw t2 s2 p2 = f.get_raw t2 s2 p2) ∧
      (∀ i, i < processes.length →
        (euler_iteration ops rngSample f processes pidx t_start scenario rng
            num_scenarios).1.get_raw (time_idx + 1) (scenario - 1).toNat
            (pidx.getD i 0) =
          ((f.raw_values.data.drop
              (time_idx * num_scenarios * processes.length +
                (scenario - 1).toNat * processes.length)).take
              processes.length).getD (pidx.getD i 0) 0 +
            termSum (fun _ c d => c * d) (processes.getD i default).coefficients f
              ((f.raw_values.data.drop
                (time_idx * num_scenarios * processes.length +
                  (scenario - 1).toNat * processes.length)).take processes.length)
              t_start scenario 0 (ds.getD i [])) := by
  obtain ⟨ds, hdslen, hreslen, hres⟩ := eulerProcLoop_spec ops rngSample f
    ((f.raw_values.data.drop
      (time_idx * num_scenarios * processes.length +
        (scenario - 1).toNat * processes.length)).take processes.length)
    t_start scenario time_idx ((scenario - 1).toNat) pidx processes 0 rng
  have heq : (euler_iteration ops rngSample f processes pidx t_start scenario rng
      num_scenarios).1 =
      { f with raw_values := { f.raw_values with
          data := writeResults
            (time_idx * num_scenarios * processes.length +
              (scenario - 1).toNat * processes.length +
              num_scenarios * processes.length)
            f.raw_values.data 0 pidx
            (eulerProcLoop ops rngSample f
              ((f.raw_values.data.drop
                (time_idx * num_scenarios * processes.length +
                  (scenario - 1).toNat * processes.length)).take processes.length)
              t_start scenario time_idx ((scenario - 1).toNat) pidx 0 processes
              rng).2.2 } } := by
    simp only [euler_iteration, htime, Option.getD_some]
  refine ⟨ds, hdslen, ?_, ?_⟩
  · intro t2 s2 p2 ht2 hs2 hp2 hno
    rw [heq]
    show (writeResults _ _ _ _ _).getD
      (t2 * f.raw_values.d2 * f.raw_values.d3 + s2 * f.raw_values.d3 + p2) 0 =
      f.raw_values.data.getD
        (t2 * f.raw_values.d2 * f.raw_values.d3 + s2 * f.raw_values.d3 + p2) 0
    rw [hd2, hd3]
    apply writeResults_getD_untouched
    intro p hp hpq
    have hpP : p < processes.length := hpidx p hp
    have hL : time_idx * num_scenarios * processes.length +
        (scenario - 1).toNat * processes.length +
        num_scenarios * processes.length + p =
        ((time_idx + 1) * num_scenarios + (scenario - 1).toNat) *
          processes.length + p := by ring
    have hR : t2 * num_scenarios * processes.length + s2 * processes.length + p2 =
        (t2 * num_scenarios + s2) * processes.length + p2 := by ring
    rw [hL, hR] at hpq
    obtain ⟨hrow, hpp⟩ := euclid_pair_eq processes.length _ _ _ _ hpq hpP hp2
    obtain ⟨htt, hss⟩ := euclid_pair_eq num_scenarios _ _ _ _ hrow hslt hs2
    exact hno ⟨htt.symm, hss.symm⟩
  · intro i hi
    rw [heq]
    show (writeResults _ _ _ _ _).getD
      ((time_idx + 1) * f.raw_values.d2 * f.raw_values.d3 +
        (scenario - 1).toNat * f.raw_values.d3 + pidx.getD i 0) 0 = _
    rw [hd2, hd3]
    have hoff : (time_idx + 1) * num_scenarios * processes.length +
        (scenario - 1).toNat * processes.length + pidx.getD i 0 =
        time_idx * num_scenarios * processes.length +
          (scenario - 1).toNat * processes.length +
          num_scenarios * processes.length + pidx.getD i 0 := by ring
    rw [hoff]
    rw [writeResults_getD_at _ _ _ _ _ i (by omega) hpnd ?_]
    · rw [Nat.zero_add]
      have h := hres i hi
      rwa [Nat.zero_add] at h
    · rw [hdata]
      have hpP : pidx.getD i 0 < processes.length :=
        hpidx _ (getD_mem_of_lt pidx i 0 (by omega))
      have := offset_lt f.times.length num_scenarios processes.length
        (time_idx + 1) ((scenario - 1).toNat) (pidx.getD i 0) htlt hslt hpP
      omega

/-- Witness for C3: a one-process constant-drift Euler step on a 2×1×1
filtration leaves the row-0 entry untouched. -/
theorem euler_step_frame_and_snapshot_witness :
    (Filtration.mk [0, 1] [1] ["X"] ⟨2, 1, 1, [5, 0]⟩).time_idx_map 0 = some 0 ∧
    (euler_iteration ⟨id, id, id⟩ (fun _ _ _ (r : ℕ) => ((0 : ℚ), r))
        (Filtration.mk [0, 1] [1] ["X"] ⟨2, 1, 1, [5, 0]⟩)
        [⟨"X", [fun _ _ _ _ => 2], [Incrementor.time ⟨[1]⟩]⟩] [0] 0 1 (0 : ℕ)
        1).1.get_raw 0 0 0 =
      (Filtration.mk [0, 1] [1] ["X"] ⟨2, 1, 1, [5, 0]⟩).get_raw 0 0 0 := by
  obtain ⟨ds, _, hframe, _⟩ := euler_step_frame_and_snapshot ⟨id, id, id⟩
    (fun _ _ _ (r : ℕ) => ((0 : ℚ), r))
    (Filtration.mk [0, 1] [1] ["X"] ⟨2, 1, 1, [5, 0]⟩)
    [⟨"X", [fun _ _ _ _ => 2], [Incrementor.time ⟨[1]⟩]⟩] [0] 0 1 (0 : ℕ) 1 0
    (by decide) rfl rfl (by decide) (by decide) (by decide) (by decide)
    (by decide) (by decide)
  exact ⟨by decide, hframe 0 0 0 (by decide) (by decide) (by decide) (by decide)⟩

/-! ## Claim C2 -/

theorem setv_zero_zero (a : Array3) (i : ℕ) (v : ℚ) :
    a.setv 0 0 i v = { a with data := a.data.set i v } := by
  simp [Array3.setv]

theorem rkStage1_spec {R : Type} (ops : FloatOps)
    (rngSample : ℕ → ℕ → ℕ → R → ℚ × R) (f : Filtration) (cv : List ℚ)
    (t_start : ℚ) (scenario : ℤ) (time_idx scenario_idx : ℕ) (pidx : List ℕ)
    (sk sqrt_dt : ℚ) :
    ∀ (procs : List LevyProcess) (i0 : ℕ) (scratch : Filtration) (rng : R),
      ∃ (ds : List (List ℚ)) (procs1 : List LevyProcess) (scratch1 : Filtration)
        (rng1 : R) (k1 : List ℚ),
        rkStage1 ops rngSample f cv t_start scenario time_idx scenario_idx pidx
          sk sqrt_dt i0 procs scratch rng = (procs1, scratch1, rng1, k1) ∧
        ds.length = procs.length ∧
        k1.length = procs.length ∧
        (∀ k, k < procs.length → k1.getD k 0 =
          termSum (fun idx c d => if idx = 0 then c * d else c * (d - sk * sqrt_dt))
            (procs.getD k default).coefficients f cv t_start scenario 0
            (ds.getD k [])) ∧
        (∀ k ti, k < procs.length →
          (procs.getD k default).incrementors.head? = some (.time ti) →
          (ds.getD k []).head? = some (ti.dts.getD time_idx 0)) ∧
        scratch1.raw_values.data.length = scratch.raw_values.data.length ∧
        (∀ q, q < i0 →
          scratch1.raw_values.data.getD q 0 = scratch.raw_values.data.getD q 0) ∧
        (∀ k, k < procs.length → i0 + k < scratch.raw_values.data.length →
          scratch1.raw_values.data.getD (i0 + k) 0 =
            cv.getD (pidx.getD (i0 + k) 0) 0 + k1.getD k 0) ∧
        (∀ (scratch2 : Filtration) (ptr2 : List ℚ) (rng2 : R),
          ∃ k2 : List ℚ,
            rkStage2 ops rngSample scratch2 ptr2 time_idx scenario_idx sk sqrt_dt
              procs1 rng2 = (procs1, rng2, k2) ∧
            k2.length = procs.length ∧
            (∀ k, k < procs.length → k2.getD k 0 =
              termSum
                (fun idx c d => if idx = 0 then c * d else c * (d + sk * sqrt_dt))
                (procs.getD k default).coefficients scratch2 ptr2 0 0 0
                (ds.getD k []))) := by
  intro procs
  induction procs with
  | nil =>
    intro i0 scratch rng
    refine ⟨[], [], scratch, rng, [], rfl, rfl, rfl,
      fun k hk => absurd hk (by simp), fun k ti hk => absurd hk (by simp),
      rfl, fun q _ => rfl, fun k hk => absurd hk (by simp),
      fun scratch2 ptr2 rng2 => ⟨[], rfl, rfl, fun k hk => absurd hk (by simp)⟩⟩
  | cons p ps ih =>
    intro i0 scratch rng
    obtain ⟨ds0, hlen0, hsum0, hstable0, hhead0⟩ := incLoop_spec ops rngSample
      (fun idx c d => if idx = 0 then c * d else c * (d - sk * sqrt_dt))
      p.coefficients f cv t_start scenario time_idx scenario_idx
      p.incrementors 0 rng
    obtain ⟨ds', procs1', scratch1, rng1, k1', heq', hdlen', hklen', hk1', hhead',
      hslen', hsq', hsat', hstage2'⟩ := ih (i0 + 1)
      { scratch with
        raw_values :=
          scratch.raw_values.setv 0 0 i0
            (cv.getD (pidx.getD i0 0) 0 +
              (incLoop ops rngSample
                (fun idx c d => if idx = 0 then c * d else c * (d - sk * sqrt_dt))
                p.coefficients f cv t_start scenario time_idx scenario_idx 0
                p.incrementors rng).1) }
      (incLoop ops rngSample
        (fun idx c d => if idx = 0 then c * d else c * (d - sk * sqrt_dt))
        p.coefficients f cv t_start scenario time_idx scenario_idx 0
        p.incrementors rng).2.2
    refine ⟨ds0 :: ds',
      { p with incrementors :=
          (incLoop ops rngSample
            (fun idx c d => if idx = 0 then c * d else c * (d - sk * sqrt_dt))
            p.coefficients f cv t_start scenario time_idx scenario_idx 0
            p.incrementors rng).2.1 } :: procs1',
      scratch1, rng1,
      (incLoop ops rngSample
        (fun idx c d => if idx = 0 then c * d else c * (d - sk * sqrt_dt))
        p.coefficients f cv t_start scenario time_idx scenario_idx 0
        p.incrementors rng).1 :: k1', ?_, by simp [hdlen'], by simp [hklen'],
      ?_, ?_, ?_, ?_, ?_, ?_⟩
    · rw [rkStage1, heq']
    · intro k hk
      cases k with
      | zero =>
        simp only [List.getD_cons_zero]
        rw [hsum0]
      | succ k => simpa using hk1' k (by simpa using hk)
    · intro k ti hk hti
      cases k with
      | zero => exact hhead0 ti (by simpa using hti)
      | succ k => exact hhead' k ti (by simpa using hk) (by simpa using hti)
    · rw [hslen', setv_zero_zero]
      exact List.length_set _ _ _
    · intro q hq
      rw [hsq' q (by omega), setv_zero_zero]
      exact getD_set_ne _ _ _ _ (by omega)
    · intro k hk hik
      cases k with
      | zero =>
        rw [Nat.add_zero, hsq' i0 (by omega), setv_zero_zero]
        show (scratch.raw_values.data.set i0 _).getD i0 0 = _
        rw [getD_set_eq _ _ _ (by simpa using hik)]
        rfl
      | succ k =>
        have h1 : i0 + (k + 1) = (i0 + 1) + k := by omega
        rw [h1, hsat' k (by simpa using hk)
          (by rw [setv_zero_zero, List.length_set]; omega)]
        simp only [List.getD_cons_succ]
    · intro scratch2 ptr2 rng2
      obtain ⟨k2', heq2', hk2len', hk2'⟩ := hstage2' scratch2 ptr2 rng2
      refine ⟨termSum
          (fun idx c d => if idx = 0 then c * d else c * (d + sk * sqrt_dt))
          p.coefficients scratch2 ptr2 0 0 0 ds0 :: k2', ?_, by simp [hk2len'], ?_⟩
      · rw [rkStage2]
        rw [hstable0 (fun idx c d => if idx = 0 then c * d else c * (d + sk * sqrt_dt))
          p.coefficients scratch2 ptr2 0 0 rng2]
        rw [heq2']
      · intro k hk
        cases k with
        | zero => simp
        | succ k => simpa using hk2' k (by simpa using hk)

theorem rkWriteBack_getD_untouched (next : ℕ) (cv k1 k2 : List ℚ) :
    ∀ (ps : List ℕ) (data : List ℚ) (i0 : ℕ) (q : ℕ),
      (∀ p ∈ ps, next + p ≠ q) →
      (rkWriteBack next cv k1 k2 data i0 ps).getD q 0 = data.getD q 0 := by
  intro ps
  induction ps with
  | nil => intro data i0 q _; rfl
  | cons p ps ih =>
    intro data i0 q hq
    show (rkWriteBack next cv k1 k2
      (data.set (next + p) (cv.getD p 0 + 0.5 * (k1.getD i0 0 + k2.getD i0 0)))
      (i0 + 1) ps).getD q 0 = _
    rw [ih _ _ _ fun x hx => hq x (List.mem_cons_of_mem p hx),
      getD_set_ne _ _ _ _ (hq p (List.mem_cons_self p ps))]

theorem rkWriteBack_getD_at (next : ℕ) (cv k1 k2 : List ℚ) :
    ∀ (ps : List ℕ) (data : List ℚ) (i0 : ℕ) (i : ℕ),
      i < ps.length → ps.Nodup → next + ps.getD i 0 < data.length →
      (rkWriteBack next cv k1 k2 data i0 ps).getD (next + ps.getD i 0) 0 =
        cv.getD (ps.getD i 0) 0 +
          0.5 * (k1.getD (i0 + i) 0 + k2.getD (i0 + i) 0) := by
  intro ps
  induction ps with
  | nil => intro data i0 i hi; simp at hi
  | cons p ps ih =>
    intro data i0 i hi hnd hlt
    cases i with
    | zero =>
      show (rkWriteBack next cv k1 k2
        (data.set (next + p) (cv.getD p 0 + 0.5 * (k1.getD i0 0 + k2.getD i0 0)))
        (i0 + 1) ps).getD (next + p) 0 = _
      rw [rkWriteBack_getD_untouched next cv k1 k2 ps _ _ _ ?_]
      · rw [getD_set_eq _ _ _ (by simpa using hlt), Nat.add_zero]
        rfl
      · intro x hx
        have hne : x ≠ p := fun he => (List.nodup_cons.mp hnd).1 (he ▸ hx)
        omega
    | succ i =>
      show (rkWriteBack next cv k1 k2
        (data.set (next + p) (cv.getD p 0 + 0.5 * (k1.getD i0 0 + k2.getD i0 0)))
        (i0 + 1) ps).getD (next + ps.getD i 0) 0 = _
      have hlt2 : next + ps.getD i 0 <
          (data.set (next + p)
            (cv.getD p 0 + 0.5 * (k1.getD i0 0 + k2.getD i0 0))).length := by
        rw [List.length_set]
        simpa using hlt
      rw [ih _ _ i (by simpa using hi) (List.nodup_cons.mp hnd).2 hlt2]
      have h3 : i0 + 1 + i = i0 + (i + 1) := by omega
      simp [h3]

/-- CLAIM C2: the Runge–Kutta step writes into row `time_idx + 1` the value
`current + 0.5·(k1[i] + k2[i])`, where a single family of realised
increments `ds` is shared by both stages: `k1[i]` sums
`coefficient(filtration, snapshot, t_start, scenario) · d` with every
non-drift increment replaced by `d − sk·√dt`, `k2[i]` sums the same
coefficients evaluated against the stage-1 scratchpad (whose row holds
`current + k1[i]`) with every non-drift increment replaced by
`d + sk·√dt`, and the drift entry (pair index 0) of `ds` is exactly
`dt = t_end − t_start` in both stages. -/
theorem runge_kutta_step_commit {R : Type} (ops : FloatOps)
    (rngSample : ℕ → ℕ → ℕ → R → ℚ × R) (sk : ℚ) (f : Filtration)
    (processes : List LevyProcess) (pidx : List ℕ) (t_start t_end : ℚ)
    (scenario : ℤ) (rng : R) (scratchpad : Filtration)
    (num_scenarios time_idx : ℕ)
    (htime : f.time_idx_map t_start = some time_idx)
    (hd2 : f.raw_values.d2 = num_scenarios)
    (hd3 : f.raw_values.d3 = processes.length)
    (hdata : f.raw_values.data.length =
      f.times.length * num_scenarios * processes.length)
    (htlt : time_idx + 1 < f.times.length)
    (hslt : (scenario - 1).toNat < num_scenarios)
    (hpidx : ∀ p ∈ pidx, p < processes.length)
    (hpnd : pidx.Nodup)
    (hplen : pidx.length = processes.length)
    (hscr : scratchpad.raw_values.data.length = processes.length)
    (hdrift : ∀ i, i < processes.length →
      ∃ ti, (processes.getD i default).incrementors.head? =
          some (Incrementor.time ti) ∧
        ti.dts.getD time_idx 0 = t_end - t_start) :
    ∃ (ds : List (List ℚ)) (scratch1 : Filtration),
      ds.length = processes.length ∧
      (∀ i, i < processes.length →
        (ds.getD i []).head? = some (t_end - t_start)) ∧
      (∀ i, i < processes.length →
        scratch1.raw_values.data.getD i 0 =
          ((f.raw_values.data.drop
              (time_idx * num_scenarios * processes.length +
                (scenario - 1).toNat * processes.length)).take
              processes.length).getD (pidx.getD i 0) 0 +
            termSum
              (fun idx c d => if idx = 0 then c * d
                else c * (d - sk * ops.sqrt (t_end - t_start)))
              (processes.getD i default).coefficients f
              ((f.raw_values.data.drop
                (time_idx * num_scenarios * processes.length +
                  (scenario - 1).toNat * processes.length)).take processes.length)
              t_start scenario 0 (ds.getD i [])) ∧
      (∀ i, i < processes.length →
        (runge_kutta_iteration ops rngSample sk f processes pidx t_start t_end
            scenario rng scratchpad num_scenarios).1.get_raw (time_idx + 1)
            (scenario - 1).toNat (pidx.getD i 0) =
          ((f.raw_values.data.drop
              (time_idx * num_scenarios * processes.length +
                (scenario - 1).toNat * processes.length)).take
              processes.length).getD (pidx.getD i 0) 0 +
            0.5 *
              (termSum
                (fun idx c d => if idx = 0 then c * d
                  else c * (d - sk * ops.sqrt (t_end - t_start)))
                (processes.getD i default).coefficients f
                ((f.raw_values.data.drop
                  (time_idx * num_scenarios * processes.length +
                    (scenario - 1).toNat * processes.length)).take
                  processes.length)
                t_start scenario 0 (ds.getD i []) +
              termSum
                (fun idx c d => if idx = 0 then c * d
                  else c * (d + sk * ops.sqrt (t_end - t_start)))
                (processes.getD i default).coefficients scratch1
                scratch1.raw_values.data 0 0 0 (ds.getD i []))) := by
  obtain ⟨ds, procs1, scratch1, rng1, k1, heq1, hdlen, hklen, hk1, hhead, hslen,
    hsq, hsat, hstage2⟩ := rkStage1_spec ops rngSample f
    ((f.raw_values.data.drop
      (time_idx * num_scenarios * processes.length +
        (scenario - 1).toNat * processes.length)).take processes.length)
    t_start scenario time_idx ((scenario - 1).toNat) pidx sk
    (ops.sqrt (t_end - t_start)) processes 0 scratchpad rng
  obtain ⟨k2, heq2, hk2len, hk2⟩ := hstage2 scratch1 scratch1.raw_values.data rng1
  have heqRK : (runge_kutta_iteration ops rngSample sk f processes pidx t_start
      t_end scenario rng scratchpad num_scenarios).1 =
      { f with raw_values := { f.raw_values with
          data := rkWriteBack
            (time_idx * num_scenarios * processes.length +
              (scenario - 1).toNat * processes.length +
              num_scenarios * processes.length)
            ((f.raw_values.data.drop
              (time_idx * num_scenarios * processes.length +
                (scenario - 1).toNat * processes.length)).take processes.length)
            k1 k2 f.raw_values.data 0 pidx } } := by
    simp only [runge_kutta_iteration, htime, Option.getD_some, heq1, heq2]
  refine ⟨ds, scratch1, hdlen, ?_, ?_, ?_⟩
  · intro i hi
    obtain ⟨ti, hti, htv⟩ := hdrift i hi
    rw [hhead i ti hi hti, htv]
  · intro i hi
    have h := hsat i hi (by rw [hscr]; omega)
    rw [Nat.zero_add] at h
    rw [h, hk1 i hi]
  · intro i hi
    rw [heqRK]
    show (rkWriteBack _ _ _ _ _ _ _).getD
      ((time_idx + 1) * f.raw_values.d2 * f.raw_values.d3 +
        (scenario - 1).toNat * f.raw_values.d3 + pidx.getD i 0) 0 = _
    rw [hd2, hd3]
    have hoff : (time_idx + 1) * num_scenarios * processes.length +
        (scenario - 1).toNat * processes.length + pidx.getD i 0 =
        time_idx * num_scenarios * processes.length +
          (scenario - 1).toNat * processes.length +
          num_scenarios * processes.length + pidx.getD i 0 := by ring
    rw [hoff]
    rw [rkWriteBack_getD_at _ _ _ _ _ _ _ i (by omega) hpnd ?_]
    · rw [Nat.zero_add, hk1 i hi, hk2 i hi]
    · rw [hdata]
      have hpP : pidx.getD i 0 < processes.length :=
        hpidx _ (getD_mem_of_lt pidx i 0 (by omega))
      have := offset_lt f.times.length num_scenarios processes.length
        (time_idx + 1) ((scenario - 1).toNat) (pidx.getD i 0) htlt hslt hpP
      omega

/-- Witness for C2: a one-process constant-drift Runge–Kutta step on a
2×1×1 filtration; the shared increment family has drift entry
`dt = 1 − 0` for the single process. -/
theorem runge_kutta_step_commit_witness :
    (Filtration.mk [0, 1] [1] ["X"] ⟨2, 1, 1, [5, 0]⟩).time_idx_map 0 = some 0 ∧
    (∀ i, i < 1 →
      ∃ ti, (([⟨"X", [fun _ _ _ _ => 2], [Incrementor.time ⟨[1]⟩]⟩] :
            List LevyProcess).getD i default).incrementors.head? =
          some (Incrementor.time ti) ∧
        ti.dts.getD 0 0 = (1 : ℚ) - 0) ∧
    ∃ ds : List (List ℚ), ds.length = 1 ∧
      ∀ i, i < 1 → (ds.getD i []).head? = some ((1 : ℚ) - 0) := by
  have hdrift : ∀ i, i < 1 →
      ∃ ti, (([⟨"X", [fun _ _ _ _ => 2], [Incrementor.time ⟨[1]⟩]⟩] :
            List LevyProcess).getD i default).incrementors.head? =
          some (Incrementor.time ti) ∧
        ti.dts.getD 0 0 = (1 : ℚ) - 0 := by
    intro i hi
    have hi0 : i = 0 := by omega
    subst hi0
    exact ⟨⟨[1]⟩, rfl, by norm_num⟩
  obtain ⟨ds, scratch1, h1, h2, _, _⟩ := runge_kutta_step_commit
    (R := ℕ) ⟨id, id, id⟩ (fun _ _ _ r => ((0 : ℚ), r)) 1
    (Filtration.mk [0, 1] [1] ["X"] ⟨2, 1, 1, [5, 0]⟩)
    [⟨"X", [fun _ _ _ _ => 2], [Incrementor.time ⟨[1]⟩]⟩] [0] 0 1 1 0
    (Filtration.mk [0] [0] ["X"] ⟨1, 1, 1, [0]⟩) 1 0
    (by decide) rfl rfl (by decide) (by decide) (by decide) (by decide)
    (by decide) rfl rfl hdrift
  exact ⟨by decide, hdrift, ds, h1, fun i hi => h2 i hi⟩

/-! ## Claim C9 -/

theorem splitOnChar_of_not_mem (sep : Char) (l : List Char) (h : sep ∉ l) :
    splitOnChar sep l = [l] := by
  induction l with
  | nil => rfl
  | cons c cs ih =>
    have hc : c ≠ sep := fun he => h (he ▸ List.mem_cons_self c cs)
    have hcs : sep ∉ cs := fun hm => h (List.mem_cons_of_mem c hm)
    simp [splitOnChar, hc, ih hcs]

theorem isPrefixOf_two {a b : Char} {tok : List Char}
    (h : [a, b].isPrefixOf tok = true) : ∃ rest, tok = a :: b :: rest := by
  cases tok with
  | nil => simp [List.isPrefixOf] at h
  | cons x xs =>
    cases xs with
    | nil => simp [List.isPrefixOf] at h
    | cons y ys =>
      simp only [List.isPrefixOf, Bool.and_eq_true, beq_iff_eq] at h
      exact ⟨ys, by rw [h.1, h.2.1]⟩

theorem parse_equation_no_eq_sign (exprOk : List Char → Bool)
    (parseF64 : List Char → Option ℚ) (eq : List Char) (hmem : '=' ∉ eq) :
    parse_equation exprOk parseF64 eq =
        .error "Could not parse process name (e.g., dX1) from equation." ∨
      parse_equation exprOk parseF64 eq = .error "No '=' found in equation" := by
  cases hn : parseNameOf eq with
  | none => left; simp [parse_equation, hn]
  | some name =>
    right
    simp [parse_equation, hn, splitOnChar_of_not_mem '=' eq hmem]

theorem parse_single_term_unknown_token (exprOk : List Char → Bool)
    (parseF64 : List Char → Option ℚ) (term0 tok : List Char)
    (param : Option (List Char))
    (hft : findToken (extractCoeff (trimChars term0)).2 = some (tok, param))
    (hdt : tok ≠ ['d', 't']) (hW : ¬ ['d', 'W'].isPrefixOf tok = true)
    (hJ : ¬ ['d', 'J'].isPrefixOf tok = true) :
    parse_single_term exprOk parseF64 term0 =
        .error ("Failed to parse expression '" ++
          String.mk (extractCoeff (trimChars term0)).1 ++ "'") ∨
      parse_single_term exprOk parseF64 term0 =
        .error ("Unsupported term '" ++ String.mk tok ++ "' found in equation.") := by
  by_cases hE : exprOk (extractCoeff (trimChars term0)).1 = false
  · left
    simp [parse_single_term, hft, hE]
  · right
    simp [parse_single_term, hft, hE, hdt, hW, hJ]

theorem parse_single_term_jump_no_lambda (exprOk : List Char → Bool)
    (parseF64 : List Char → Option ℚ) (term0 tok : List Char)
    (param : Option (List Char))
    (hft : findToken (extractCoeff (trimChars term0)).2 = some (tok, param))
    (hJ : ['d', 'J'].isPrefixOf tok = true) (hlam : param.bind parseF64 = none) :
    parse_single_term exprOk parseF64 term0 =
        .error ("Failed to parse expression '" ++
          String.mk (extractCoeff (trimChars term0)).1 ++ "'") ∨
      parse_single_term exprOk parseF64 term0 =
        .error ("Jump term '" ++ String.mk tok ++
          "' requires a numeric lambda, e.g., dJ(0.5)") := by
  obtain ⟨rest, htok⟩ := isPrefixOf_two hJ
  subst htok
  by_cases hE : exprOk (extractCoeff (trimChars term0)).1 = false
  · left
    simp [parse_single_term, hft, hE]
  · right
    have hdt : ('d' :: 'J' :: rest) ≠ ['d', 't'] := by simp
    have hW : ¬ ['d', 'W'].isPrefixOf ('d' :: 'J' :: rest) = true := by
      simp [List.isPrefixOf]
    simp [parse_single_term, hft, hE, hdt, hW, hJ, hlam]

theorem parse_single_term_no_token (exprOk : List Char → Bool)
    (parseF64 : List Char → Option ℚ) (term0 : List Char)
    (hft : findToken (extractCoeff (trimChars term0)).2 = none) :
    parse_single_term exprOk parseF64 term0 =
      .error ("Could not parse incrementor from term: " ++
        String.mk (extractCoeff (trimChars term0)).2) := by
  simp [parse_single_term, hft]

theorem parseEquationsList_all_or_error (exprOk : List Char → Bool)
    (parseF64 : List Char → Option ℚ) :
    ∀ eqs : List (List Char),
      (∃ ps, parseEquationsList exprOk parseF64 eqs = .ok ps ∧
        ps.length = eqs.length) ∨
      (∃ msg, parseEquationsList exprOk parseF64 eqs = .error msg) := by
  intro eqs
  induction eqs with
  | nil => exact Or.inl ⟨[], rfl, rfl⟩
  | cons eq eqs ih =>
    cases hpe : parse_equation exprOk parseF64 eq with
    | error e =>
      exact Or.inr ⟨e, by simp only [parseEquationsList]; rw [hpe]; rfl⟩
    | ok p =>
      rcases ih with ⟨ps, hps, hlen⟩ | ⟨msg, hmsg⟩
      · exact Or.inl ⟨p :: ps,
          by simp only [parseEquationsList]; rw [hpe, hps]; rfl, by simp [hlen]⟩
      · exact Or.inr ⟨msg, by simp only [parseEquationsList]; rw [hpe, hmsg]; rfl⟩

theorem parseEquationsList_error_of_mem (exprOk : List Char → Bool)
    (parseF64 : List Char → Option ℚ) :
    ∀ (eqs : List (List Char)) (eq : List Char) (msg : String), eq ∈ eqs →
      parse_equation exprOk parseF64 eq = .error msg →
      ∃ m, parseEquationsList exprOk parseF64 eqs = .error m := by
  intro eqs
  induction eqs with
  | nil => intro eq msg hmem; simp at hmem
  | cons e es ih =>
    intro eq msg hmem herr
    cases hpe : parse_equation exprOk parseF64 e with
    | error m => exact ⟨m, by simp only [parseEquationsList]; rw [hpe]; rfl⟩
    | ok p =>
      rcases List.mem_cons.mp hmem with heq | hmem2
      · rw [heq] at herr
        rw [herr] at hpe
        exact absurd hpe (by simp)
      · obtain ⟨m, hm⟩ := ih eq msg hmem2 herr
        exact ⟨m, by simp only [parseEquationsList]; rw [hpe, hm]; rfl⟩

/-- CLAIM C9: malformed equations are rejected with an error naming the
offending part — an equation without `=` yields the name or missing-`=`
error; a term whose extracted incrementor token is none of `dt`, `dW…`,
`dJ…` (or has no token at all) yields an error naming that token or term;
a `dJ` token without a parseable numeric lambda yields the jump-lambda
error — and `parse_equations` never returns a partial list: it yields
either one parsed process per input equation or a single error, and any
member equation that fails to parse forces the error outcome. All of this
holds for every behaviour of the embedded expression engine and float
parser. -/
theorem parse_errors_and_no_partial_list (exprOk : List Char → Bool)
    (parseF64 : List Char → Option ℚ) :
    (∀ eq : List Char, '=' ∉ eq →
      parse_equation exprOk parseF64 eq =
          .error "Could not parse process name (e.g., dX1) from equation." ∨
        parse_equation exprOk parseF64 eq = .error "No '=' found in equation") ∧
    (∀ (term0 tok : List Char) (param : Option (List Char)),
      findToken (extractCoeff (trimChars term0)).2 = some (tok, param) →
      tok ≠ ['d', 't'] → ¬ ['d', 'W'].isPrefixOf tok = true →
      ¬ ['d', 'J'].isPrefixOf tok = true →
      parse_single_term exprOk parseF64 term0 =
          .error ("Failed to parse expression '" ++
            String.mk (extractCoeff (trimChars term0)).1 ++ "'") ∨
        parse_single_term exprOk parseF64 term0 =
          .error ("Unsupported term '" ++ String.mk tok ++
            "' found in equation.")) ∧
    (∀ (term0 tok : List Char) (param : Option (List Char)),
      findToken (extractCoeff (trimChars term0)).2 = some (tok, param) →
      ['d', 'J'].isPrefixOf tok = true → param.bind parseF64 = none →
      parse_single_term exprOk parseF64 term0 =
          .error ("Failed to parse expression '" ++
            String.mk (extractCoeff (trimChars term0)).1 ++ "'") ∨
        parse_single_term exprOk parseF64 term0 =
          .error ("Jump term '" ++ String.mk tok ++
            "' requires a numeric lambda, e.g., dJ(0.5)")) ∧
    (∀ term0 : List Char,
      findToken (extractCoeff (trimChars term0)).2 = none →
      parse_single_term exprOk parseF64 term0 =
        .error ("Could not parse incrementor from term: " ++
          String.mk (extractCoeff (trimChars term0)).2)) ∧
    (∀ eqs : List (List Char),
      (∃ ps, parse_equations exprOk parseF64 eqs = .ok ps ∧
        ps.length = eqs.length) ∨
      (∃ msg, parse_equations exprOk parseF64 eqs = .error msg)) ∧
    (∀ (eqs : List (List Char)) (eq : List Char) (msg : String), eq ∈ eqs →
      parse_equation exprOk parseF64 eq = .error msg →
      ∃ m, parse_equations exprOk parseF64 eqs = .error m) := by
  refine ⟨parse_equation_no_eq_sign exprOk parseF64,
    parse_single_term_unknown_token exprOk parseF64,
    parse_single_term_jump_no_lambda exprOk parseF64,
    parse_single_term_no_token exprOk parseF64, ?_, ?_⟩
  · intro eqs
    cases eqs with
    | nil => exact Or.inr ⟨"No equations provided to parse.", rfl⟩
    | cons e es =>
      have h := parseEquationsList_all_or_error exprOk parseF64 (e :: es)
      simpa [parse_equations] using h
  · intro eqs eq msg hmem herr
    cases eqs with
    | nil => simp at hmem
    | cons e es =>
      obtain ⟨m, hm⟩ := parseEquationsList_error_of_mem exprOk parseF64 (e :: es)
        eq msg hmem herr
      exact ⟨m, by simpa [parse_equations] using hm⟩

/-- Witness for C9: the equation `dX (1)` has no `=` and is rejected, and
the term `(1) * dJ1` carries a `dJ` token without a lambda and is
rejected, under a trivially succeeding expression engine and a float
parser that accepts nothing. -/
theorem parse_errors_and_no_partial_list_witness :
    ('=' ∉ (['d', 'X', ' ', '(', '1', ')'] : List Char)) ∧
    (parse_equation (fun _ => true) (fun _ => none) ['d', 'X', ' ', '(', '1', ')'] =
        .error "Could not parse process name (e.g., dX1) from equation." ∨
      parse_equation (fun _ => true) (fun _ => none) ['d', 'X', ' ', '(', '1', ')'] =
        .error "No '=' found in equation") ∧
    findToken
        (extractCoeff (trimChars
          ['(', '1', ')', ' ', '*', ' ', 'd', 'J', '1'])).2 =
      some (['d', 'J', '1'], none) ∧
    (parse_single_term (fun _ => true) (fun _ => none)
          ['(', '1', ')', ' ', '*', ' ', 'd', 'J', '1'] =
        .error ("Failed to parse expression '" ++
          String.mk (extractCoeff (trimChars
            ['(', '1', ')', ' ', '*', ' ', 'd', 'J', '1'])).1 ++ "'") ∨
      parse_single_term (fun _ => true) (fun _ => none)
          ['(', '1', ')', ' ', '*', ' ', 'd', 'J', '1'] =
        .error ("Jump term '" ++ String.mk ['d', 'J', '1'] ++
          "' requires a numeric lambda, e.g., dJ(0.5)")) := by
  have h := parse_errors_and_no_partial_list (fun _ => true) (fun _ => none)
  exact ⟨by decide, h.1 _ (by decide), by decide,
    h.2.2.1 ['(', '1', ')', ' ', '*', ' ', 'd', 'J', '1'] ['d', 'J', '1'] none
      (by decide) (by decide) rfl⟩
